import Mathlib

set_option maxRecDepth 8192

/-!
# Verification of the Obsidian → Astro content synchronization pipeline

This file gives a shallow embedding, in Lean 4, of the pure core of
`scripts/sync-content.ts` (slug generation, image-reference extraction,
curly-brace escaping, content transformation, frontmatter parsing, the
network fetcher's control flow and the per-run download cache), together
with the downstream content-collection schema of `src/content/config.ts`,
and proves or refutes the specified properties of that pipeline.

Texts are modelled as `List Char`; JavaScript regular-expression matching
is embedded by explicit scanners whose semantics follow the regex engine
(leftmost match, greedy quantifiers with the backtracking the concrete
patterns admit).  Filesystem and console effects are not modelled; the
observable outputs of a document run (the emitted MDX text, the warning
flag for a missing hero image, the download attempts and the caches) are
returned as data.
-/

/-- JavaScript `\s` (and `String.prototype.trim` / `trimStart`) on the
ASCII range: space, tab, line feed, carriage return, vertical tab, form
feed. -/
def isJsSpace (c : Char) : Bool :=
  c = ' ' || c = '\t' || c = '\n' || c = '\r' || c = '\x0b' || c = '\x0c'

/-- JavaScript `\w`: ASCII letters, digits and underscore. -/
def isWordChar (c : Char) : Bool :=
  c.isAlphanum || c = '_'

/-- `content.trimStart()`. -/
def jsTrimStart (l : List Char) : List Char :=
  l.dropWhile isJsSpace

/-- `content.trim()`. -/
def jsTrim (l : List Char) : List Char :=
  ((l.dropWhile isJsSpace).reverse.dropWhile isJsSpace).reverse

/-- `text.split(sep)` for a one-character separator: the list of chunks
between occurrences of `sep` (empty chunks preserved, one more chunk than
separators). -/
def splitOnChar (sep : Char) : List Char → List (List Char)
  | [] => [[]]
  | c :: cs =>
    match splitOnChar sep cs with
    | [] => [[]]
    | h :: t => if c = sep then [] :: h :: t else (c :: h) :: t

/-- `chunks.join(sep)` for a one-character separator. -/
def joinChar (sep : Char) : List (List Char) → List Char
  | [] => []
  | [l] => l
  | l :: ls => l ++ sep :: joinChar sep ls

theorem splitOnChar_ne_nil (sep : Char) (l : List Char) :
    splitOnChar sep l ≠ [] := by
  cases l with
  | nil => simp [splitOnChar]
  | cons c cs =>
    simp only [splitOnChar]
    cases h : splitOnChar sep cs with
    | nil => simp
    | cons hd tl => by_cases hc : c = sep <;> simp [hc]

theorem joinChar_splitOnChar (sep : Char) (l : List Char) :
    joinChar sep (splitOnChar sep l) = l := by
  induction l with
  | nil => rfl
  | cons c cs ih =>
    simp only [splitOnChar]
    cases h : splitOnChar sep cs with
    | nil => exact absurd h (splitOnChar_ne_nil sep cs)
    | cons hd tl =>
      rw [h] at ih
      by_cases hc : c = sep
      · subst hc
        simp only [if_pos rfl]
        simpa [joinChar] using ih
      · simp only [if_neg hc]
        cases tl with
        | nil => simpa [joinChar] using ih
        | cons a b => simpa [joinChar] using ih

/-- If a chunk contains no separator, splitting the concatenation
`l ++ sep :: y` yields `l` as its first chunk. -/
theorem splitOnChar_append_sep (sep : Char) (l y : List Char)
    (hl : ∀ c ∈ l, c ≠ sep) :
    splitOnChar sep (l ++ sep :: y) = l :: splitOnChar sep y := by
  induction l with
  | nil =>
    simp only [List.nil_append, splitOnChar]
    cases h : splitOnChar sep y with
    | nil => exact absurd h (splitOnChar_ne_nil sep y)
    | cons hd tl => simp
  | cons c cs ih =>
    have hc : c ≠ sep := hl c (by simp)
    have ih' := ih (fun d hd => hl d (by simp [hd]))
    simp only [List.cons_append, splitOnChar]
    rw [show (cs.append (sep :: y)) = cs ++ sep :: y from rfl, ih']
    simp [hc]

/-- The slug of a filename: characters the generator keeps as-is
(`[a-z0-9]`, checked after lower-casing). -/
def isSlugChar (c : Char) : Bool :=
  ('a' ≤ c && c ≤ 'z') || ('0' ≤ c && c ≤ '9')

/-- `filename.replace(/\.md$/, "")`. -/
def stripMdExt (l : List Char) : List Char :=
  if ['d', 'm', '.'].isPrefixOf l.reverse then (l.reverse.drop 3).reverse else l

mutual
/-- `.replace(/[^a-z0-9]+/g, "-")`: each maximal run of characters outside
`[a-z0-9]` becomes a single hyphen. -/
def collapseNonAlnum : List Char → List Char
  | [] => []
  | c :: cs => if isSlugChar c then c :: collapseNonAlnum cs else '-' :: skipJunk cs

/-- State of `collapseNonAlnum` inside a non-alphanumeric run whose hyphen
has already been emitted. -/
def skipJunk : List Char → List Char
  | [] => []
  | c :: cs => if isSlugChar c then c :: collapseNonAlnum cs else skipJunk cs
end

/-- One leading hyphen removed, if present. -/
def dropLeadHyphen (l : List Char) : List Char :=
  match l with
  | c :: r => if c = '-' then r else l
  | [] => l

/-- `.replace(/^-|-$/g, "")`: one leading and one trailing hyphen removed
(the global regex can match `^-` once and `-$` once). -/
def trimHyphens (l : List Char) : List Char :=
  (dropLeadHyphen (dropLeadHyphen l).reverse).reverse

/-- Slug generation from a filename (`generateSlug`, filename branch):
drop a `.md` extension, lower-case, collapse non-alphanumeric runs to a
hyphen, trim a leading/trailing hyphen. -/
def slugFromFilename (filename : List Char) : List Char :=
  trimHyphens (collapseNonAlnum ((stripMdExt filename).map Char.toLower))

/-- `generateSlug(filename, frontmatterSlug)`: an explicit frontmatter slug
is returned verbatim when truthy (a present, non-empty string); otherwise
the slug is generated from the filename. -/
def generateSlug (filename : List Char) (frontmatterSlug : Option (List Char)) :
    List Char :=
  match frontmatterSlug with
  | some s => if s = [] then slugFromFilename filename else s
  | none => slugFromFilename filename

mutual
/-- Specification-side decomposition of a text into its maximal runs of
slug characters, in order: the runs the spec says are kept between single
hyphens.  (Scanning state: outside a run.) -/
def alnumRunsOut : List Char → List (List Char)
  | [] => []
  | c :: cs => if isSlugChar c then alnumRunsIn [c] cs else alnumRunsOut cs

/-- Scanning state of `alnumRunsOut` inside a run; `acc` holds the current
run reversed. -/
def alnumRunsIn (acc : List Char) : List Char → List (List Char)
  | [] => [acc.reverse]
  | c :: cs => if isSlugChar c then alnumRunsIn (c :: acc) cs
               else acc.reverse :: alnumRunsOut cs
end

/-- The slug rule as the specification words it: the filename with `.md`
removed and lower-cased, its maximal alphanumeric runs joined by single
hyphens (equivalently: non-alphanumeric runs collapsed to one hyphen and
leading/trailing hyphens trimmed). -/
def slugSpec (filename : List Char) : List Char :=
  joinChar '-' (alnumRunsOut ((stripMdExt filename).map Char.toLower))

theorem dropWhile_head_false (p : Char → Bool) (l : List Char) (c : Char)
    (cs : List Char) (h : l.dropWhile p = c :: cs) : p c = false := by
  induction l with
  | nil => simp [List.dropWhile] at h
  | cons a as ih =>
    rw [List.dropWhile_cons] at h
    by_cases ha : p a
    · rw [if_pos ha] at h; exact ih h
    · rw [if_neg ha] at h
      cases h
      simpa using ha

theorem dropWhile_length_le (p : Char → Bool) (l : List Char) :
    (l.dropWhile p).length ≤ l.length := by
  induction l with
  | nil => simp [List.dropWhile]
  | cons a as ih =>
    rw [List.dropWhile_cons]
    by_cases ha : p a
    · rw [if_pos ha]; exact Nat.le_trans ih (Nat.le_succ _)
    · rw [if_neg ha]

theorem mem_takeWhile_true (p : Char → Bool) (l : List Char) (c : Char)
    (h : c ∈ l.takeWhile p) : p c = true := by
  induction l with
  | nil => simp [List.takeWhile] at h
  | cons a as ih =>
    rw [List.takeWhile_cons] at h
    by_cases ha : p a
    · rw [if_pos ha] at h
      rcases List.mem_cons.mp h with h1 | h2
      · subst h1; exact ha
      · exact ih h2
    · rw [if_neg ha] at h; simp at h

theorem collapse_append_ok (run rest : List Char)
    (h : ∀ c ∈ run, isSlugChar c = true) :
    collapseNonAlnum (run ++ rest) = run ++ collapseNonAlnum rest := by
  induction run with
  | nil => simp
  | cons c cs ih =>
    have hc := h c (by simp)
    simp only [List.cons_append, collapseNonAlnum, hc, if_pos]
    rw [show (cs.append rest) = cs ++ rest from rfl,
      ih (fun d hd => h d (by simp [hd]))]

theorem skipJunk_eq_collapse (l : List Char) :
    skipJunk l = collapseNonAlnum (l.dropWhile (fun c => !isSlugChar c)) := by
  induction l with
  | nil => rfl
  | cons c cs ih =>
    by_cases hc : isSlugChar c
    · simp [skipJunk, hc, List.dropWhile_cons, collapseNonAlnum]
    · simp [skipJunk, hc, List.dropWhile_cons, ih]

theorem alnumRunsIn_eq (l acc : List Char) :
    alnumRunsIn acc l =
      (acc.reverse ++ l.takeWhile isSlugChar) ::
        alnumRunsOut (l.dropWhile isSlugChar) := by
  induction l generalizing acc with
  | nil => simp [alnumRunsIn, List.takeWhile, List.dropWhile, alnumRunsOut]
  | cons c cs ih =>
    by_cases hc : isSlugChar c
    · simp only [alnumRunsIn, hc, if_pos, List.takeWhile_cons, List.dropWhile_cons,
        if_true, ih]
      simp
    · simp [alnumRunsIn, alnumRunsOut, hc, List.takeWhile_cons, List.dropWhile_cons]

theorem alnumRunsOut_junk_front (j rest : List Char)
    (h : ∀ c ∈ j, isSlugChar c = false) :
    alnumRunsOut (j ++ rest) = alnumRunsOut rest := by
  induction j with
  | nil => simp
  | cons c cs ih =>
    have hc := h c (by simp)
    simp only [List.cons_append, alnumRunsOut, hc]
    simp only [Bool.false_eq_true, if_false]
    exact ih (fun d hd => h d (by simp [hd]))

theorem alnumRunsOut_eq_nil_iff (l : List Char) :
    alnumRunsOut l = [] ↔ ∀ c ∈ l, isSlugChar c = false := by
  induction l with
  | nil => simp [alnumRunsOut]
  | cons c cs ih =>
    by_cases hc : isSlugChar c
    · simp [alnumRunsOut, hc, alnumRunsIn_eq]
    · simp [alnumRunsOut, hc, ih]

/-- Whether a text starts with a non-slug character. -/
def headJunk (l : List Char) : Bool :=
  match l with
  | [] => false
  | c :: _ => !isSlugChar c

/-- Whether a text ends with a non-slug character. -/
def lastJunk (l : List Char) : Bool :=
  headJunk l.reverse

theorem lastJunk_append (pre rest : List Char) (h : rest ≠ []) :
    lastJunk (pre ++ rest) = lastJunk rest := by
  unfold lastJunk
  rw [List.reverse_append]
  cases hr : rest.reverse with
  | nil => exact absurd (by simpa using congrArg List.reverse hr) h
  | cons a as => simp [headJunk]

theorem lastJunk_of_all_junk (l : List Char) (hne : l ≠ [])
    (h : ∀ c ∈ l, isSlugChar c = false) : lastJunk l = true := by
  unfold lastJunk
  cases hr : l.reverse with
  | nil => exact absurd (by simpa using congrArg List.reverse hr) hne
  | cons a as =>
    have ha : a ∈ l := by
      have : a ∈ l.reverse := by rw [hr]; simp
      simpa using this
    simp [headJunk, h a ha]

theorem lastJunk_of_all_ok (l : List Char)
    (h : ∀ c ∈ l, isSlugChar c = true) : lastJunk l = false := by
  unfold lastJunk
  cases hr : l.reverse with
  | nil => simp [headJunk]
  | cons a as =>
    have ha : a ∈ l := by
      have : a ∈ l.reverse := by rw [hr]; simp
      simpa using this
    simp [headJunk, h a ha]

/-- Characterization of the non-alphanumeric collapse: an optional leading
hyphen (present when the text starts with junk), the maximal alphanumeric
runs joined by single hyphens, and an optional trailing hyphen (present
when a nonempty-run text ends with junk). -/
theorem collapse_characterization :
    ∀ (n : Nat) (l : List Char), l.length ≤ n →
      collapseNonAlnum l =
        (if headJunk l then ['-'] else []) ++ joinChar '-' (alnumRunsOut l) ++
          (if lastJunk l && !(alnumRunsOut l).isEmpty then ['-'] else []) := by
  intro n
  induction n with
  | zero =>
    intro l hl
    have : l = [] := List.length_eq_zero.mp (Nat.le_zero.mp hl)
    subst this
    simp [collapseNonAlnum, alnumRunsOut, headJunk, lastJunk, joinChar]
  | succ n ih =>
    intro l hl
    cases l with
    | nil => simp [collapseNonAlnum, alnumRunsOut, headJunk, lastJunk, joinChar]
    | cons c cs =>
      have hlcs : cs.length ≤ n := by simpa using hl
      by_cases hc : isSlugChar c
      · -- alphanumeric head: peel the maximal run
        have hruntail : ∀ d ∈ cs.takeWhile isSlugChar, isSlugChar d = true :=
          fun d hd => mem_takeWhile_true _ _ _ hd
        have hcs : cs.takeWhile isSlugChar ++ cs.dropWhile isSlugChar = cs :=
          List.takeWhile_append_dropWhile _ _
        have hsplit : (c :: cs.takeWhile isSlugChar) ++ cs.dropWhile isSlugChar =
            c :: cs := by rw [List.cons_append, hcs]
        have hrunok : ∀ d ∈ c :: cs.takeWhile isSlugChar, isSlugChar d = true := by
          intro d hd
          rcases List.mem_cons.mp hd with h1 | h2
          · subst h1; exact hc
          · exact hruntail d h2
        have hcol : collapseNonAlnum (c :: cs) =
            (c :: cs.takeWhile isSlugChar) ++
              collapseNonAlnum (cs.dropWhile isSlugChar) := by
          have h2 := collapse_append_ok (c :: cs.takeWhile isSlugChar)
            (cs.dropWhile isSlugChar) hrunok
          rw [hsplit] at h2
          exact h2
        have hruns : alnumRunsOut (c :: cs) =
            (c :: cs.takeWhile isSlugChar) :: alnumRunsOut (cs.dropWhile isSlugChar) := by
          simp [alnumRunsOut, hc, alnumRunsIn_eq]
        have hhead : headJunk (c :: cs) = false := by simp [headJunk, hc]
        cases hr : cs.dropWhile isSlugChar with
        | nil =>
          have hlist : c :: cs = c :: cs.takeWhile isSlugChar := by
            have h2 := hsplit
            rw [hr] at h2
            simpa using h2.symm
          have hallok : ∀ d ∈ c :: cs, isSlugChar d = true := by
            rw [hlist]; exact hrunok
          rw [hcol, hr, hruns, hr, hhead]
          simp [collapseNonAlnum, alnumRunsOut, joinChar,
            lastJunk_of_all_ok _ hallok]
        | cons d ds =>
          have hd : isSlugChar d = false := dropWhile_head_false _ _ _ _ hr
          have hlen : (cs.dropWhile isSlugChar).length ≤ n :=
            Nat.le_trans (dropWhile_length_le _ _) hlcs
          have hIH := ih (cs.dropWhile isSlugChar) hlen
          have hheadrest : headJunk (cs.dropWhile isSlugChar) = true := by
            rw [hr]; simp [headJunk, hd]
          have hlast : lastJunk (c :: cs) = lastJunk (cs.dropWhile isSlugChar) := by
            rw [← hsplit]
            exact lastJunk_append _ _ (by rw [hr]; simp)
          cases hrr : alnumRunsOut (cs.dropWhile isSlugChar) with
          | nil =>
            have hjunk : ∀ e ∈ cs.dropWhile isSlugChar, isSlugChar e = false :=
              (alnumRunsOut_eq_nil_iff _).mp hrr
            have hlastrest : lastJunk (cs.dropWhile isSlugChar) = true :=
              lastJunk_of_all_junk _ (by rw [hr]; simp) hjunk
            rw [hrr, hheadrest, hlastrest] at hIH
            simp only [joinChar, List.isEmpty_nil, Bool.not_true, Bool.and_false,
              if_true, if_false] at hIH
            rw [hcol, hIH, hruns, hrr, hhead, hlast, hlastrest]
            simp [joinChar]
          | cons r rs =>
            rw [hrr, hheadrest] at hIH
            rw [hcol, hIH, hruns, hrr, hhead, hlast]
            simp only [List.isEmpty_cons, Bool.not_false, Bool.and_true, if_true,
              List.nil_append, joinChar]
            cases hlj : lastJunk (cs.dropWhile isSlugChar) <;> simp [joinChar]
      · -- junk head: peel the maximal junk block
        have hjunktail : ∀ d ∈ cs.takeWhile (fun e => !isSlugChar e),
            isSlugChar d = false := by
          intro d hd
          have := mem_takeWhile_true _ _ _ hd
          simpa using this
        have hcs : cs.takeWhile (fun e => !isSlugChar e) ++
            cs.dropWhile (fun e => !isSlugChar e) = cs :=
          List.takeWhile_append_dropWhile _ _
        have hsplit : (c :: cs.takeWhile (fun e => !isSlugChar e)) ++
            cs.dropWhile (fun e => !isSlugChar e) = c :: cs := by
          rw [List.cons_append, hcs]
        have hjunkblock : ∀ d ∈ c :: cs.takeWhile (fun e => !isSlugChar e),
            isSlugChar d = false := by
          intro d hd
          rcases List.mem_cons.mp hd with h1 | h2
          · subst h1; simpa using hc
          · exact hjunktail d h2
        have hcol : collapseNonAlnum (c :: cs) =
            '-' :: collapseNonAlnum (cs.dropWhile (fun e => !isSlugChar e)) := by
          simp [collapseNonAlnum, hc, skipJunk_eq_collapse]
        have hruns : alnumRunsOut (c :: cs) =
            alnumRunsOut (cs.dropWhile (fun e => !isSlugChar e)) := by
          rw [← hsplit]
          exact alnumRunsOut_junk_front _ _ hjunkblock
        have hhead : headJunk (c :: cs) = true := by simp [headJunk, hc]
        cases hr : cs.dropWhile (fun e => !isSlugChar e) with
        | nil =>
          have hlist : c :: cs = c :: cs.takeWhile (fun e => !isSlugChar e) := by
            have h2 := hsplit
            rw [hr] at h2
            simpa using h2.symm
          have hjunkall : ∀ d ∈ c :: cs, isSlugChar d = false := by
            rw [hlist]; exact hjunkblock
          have hrnil : alnumRunsOut (c :: cs) = [] :=
            (alnumRunsOut_eq_nil_iff _).mpr hjunkall
          rw [hcol, hr, hrnil, hhead]
          simp [collapseNonAlnum, joinChar]
        | cons d ds =>
          have hd' : (fun e => !isSlugChar e) d = false :=
            dropWhile_head_false _ _ _ _ hr
          have hd : isSlugChar d = true := by simpa using hd'
          have hlen : (cs.dropWhile (fun e => !isSlugChar e)).length ≤ n :=
            Nat.le_trans (dropWhile_length_le _ _) hlcs
          have hIH := ih (cs.dropWhile (fun e => !isSlugChar e)) hlen
          have hheadrest : headJunk (cs.dropWhile (fun e => !isSlugChar e)) = false := by
            rw [hr]; simp [headJunk, hd]
          have hrunsrest : alnumRunsOut (cs.dropWhile (fun e => !isSlugChar e)) ≠ [] := by
            rw [hr]
            simp [alnumRunsOut, hd, alnumRunsIn_eq]
          have hlast : lastJunk (c :: cs) =
              lastJunk (cs.dropWhile (fun e => !isSlugChar e)) := by
            rw [← hsplit]
            exact lastJunk_append _ _ (by rw [hr]; simp)
          rw [hheadrest] at hIH
          rw [hcol, hIH, hruns, hhead, hlast]
          cases hrr : alnumRunsOut (cs.dropWhile (fun e => !isSlugChar e)) with
          | nil => exact absurd hrr hrunsrest
          | cons r rs => simp

theorem alnumRunsOut_good :
    ∀ (n : Nat) (l : List Char), l.length ≤ n →
      ∀ r ∈ alnumRunsOut l, r ≠ [] ∧ ∀ c ∈ r, isSlugChar c = true := by
  intro n
  induction n with
  | zero =>
    intro l hl
    have : l = [] := List.length_eq_zero.mp (Nat.le_zero.mp hl)
    subst this
    simp [alnumRunsOut]
  | succ n ih =>
    intro l hl
    cases l with
    | nil => simp [alnumRunsOut]
    | cons c cs =>
      have hlcs : cs.length ≤ n := by simpa using hl
      by_cases hc : isSlugChar c
      · have hruns : alnumRunsOut (c :: cs) =
            (c :: cs.takeWhile isSlugChar) :: alnumRunsOut (cs.dropWhile isSlugChar) := by
          simp [alnumRunsOut, hc, alnumRunsIn_eq]
        rw [hruns]
        intro r hr
        rcases List.mem_cons.mp hr with h1 | h2
        · subst h1
          refine ⟨by simp, ?_⟩
          intro d hd
          rcases List.mem_cons.mp hd with h3 | h4
          · subst h3; exact hc
          · exact mem_takeWhile_true _ _ _ h4
        · exact ih (cs.dropWhile isSlugChar)
            (Nat.le_trans (dropWhile_length_le _ _) hlcs) r h2
      · have hruns : alnumRunsOut (c :: cs) = alnumRunsOut cs := by
          simp [alnumRunsOut, hc]
        rw [hruns]
        exact ih cs hlcs

theorem joinChar_head_ok (r : List Char) (rs : List (List Char))
    (hgood : ∀ x ∈ r :: rs, x ≠ [] ∧ ∀ c ∈ x, isSlugChar c = true) :
    ∃ h t, joinChar '-' (r :: rs) = h :: t ∧ isSlugChar h = true := by
  obtain ⟨hne, hok⟩ := hgood r (by simp)
  cases r with
  | nil => exact absurd rfl hne
  | cons a r' =>
    cases rs with
    | nil => exact ⟨a, r', rfl, hok a (by simp)⟩
    | cons b bs =>
      exact ⟨a, r' ++ '-' :: joinChar '-' (b :: bs), rfl, hok a (by simp)⟩

theorem joinChar_last_ok :
    ∀ (rs : List (List Char)) (r : List Char),
      (∀ x ∈ r :: rs, x ≠ [] ∧ ∀ c ∈ x, isSlugChar c = true) →
      ∃ h t, (joinChar '-' (r :: rs)).reverse = h :: t ∧ isSlugChar h = true := by
  intro rs
  induction rs with
  | nil =>
    intro r hgood
    obtain ⟨hne, hok⟩ := hgood r (by simp)
    cases hr : r.reverse with
    | nil => exact absurd (by simpa using congrArg List.reverse hr) hne
    | cons a t =>
      have ha : a ∈ r := by
        have : a ∈ r.reverse := by rw [hr]; simp
        simpa using this
      exact ⟨a, t, by simpa [joinChar] using hr, hok a ha⟩
  | cons b bs ih =>
    intro r hgood
    obtain ⟨a, t, hrev, hok⟩ := ih b (fun x hx => hgood x (by simp [hx]))
    refine ⟨a, t ++ '-' :: r.reverse, ?_, hok⟩
    show (joinChar '-' (r :: b :: bs)).reverse = a :: (t ++ '-' :: r.reverse)
    have : joinChar '-' (r :: b :: bs) = r ++ '-' :: joinChar '-' (b :: bs) := rfl
    rw [this, List.reverse_append, List.reverse_cons']
    rw [hrev]
    simp

theorem trimHyphens_wrap (core : List Char) (b1 b2 : Bool)
    (hh : ∃ h t, core = h :: t ∧ isSlugChar h = true)
    (hl : ∃ h t, core.reverse = h :: t ∧ isSlugChar h = true) :
    trimHyphens ((if b1 then ['-'] else []) ++ core ++
      (if b2 then ['-'] else [])) = core := by
  obtain ⟨h, t, hcore, hok⟩ := hh
  obtain ⟨h2, t2, hrev, hok2⟩ := hl
  have hne : h ≠ '-' := by
    intro he; subst he; simp [isSlugChar] at hok
  have hne2 : h2 ≠ '-' := by
    intro he; subst he; simp [isSlugChar] at hok2
  have step1 : ∀ tr : List Char,
      dropLeadHyphen ((if b1 then ['-'] else []) ++ core ++ tr) = core ++ tr := by
    intro tr
    cases b1 with
    | true => simp [dropLeadHyphen]
    | false => simp [dropLeadHyphen, hcore, hne]
  unfold trimHyphens
  cases b2 with
  | true =>
    show (dropLeadHyphen (dropLeadHyphen ((if b1 = true then ['-'] else []) ++
      core ++ ['-'])).reverse).reverse = core
    rw [step1 ['-']]
    have : (core ++ ['-']).reverse = '-' :: core.reverse := by
      rw [List.reverse_append]; simp
    rw [this]
    simp [dropLeadHyphen]
  | false =>
    show (dropLeadHyphen (dropLeadHyphen ((if b1 = true then ['-'] else []) ++
      core ++ [])).reverse).reverse = core
    rw [step1 []]
    rw [List.append_nil, hrev]
    have hdrop : dropLeadHyphen (h2 :: t2) = h2 :: t2 := by
      simp [dropLeadHyphen, hne2]
    rw [hdrop, ← hrev]
    simp

theorem slugFromFilename_eq_slugSpec (filename : List Char) :
    slugFromFilename filename = slugSpec filename := by
  unfold slugFromFilename slugSpec
  generalize (stripMdExt filename).map Char.toLower = L
  rw [collapse_characterization L.length L (Nat.le_refl _)]
  cases hrr : alnumRunsOut L with
  | nil =>
    cases hhj : headJunk L <;>
      simp [trimHyphens, dropLeadHyphen, joinChar]
  | cons r rs =>
    have hgood := alnumRunsOut_good L.length L (Nat.le_refl _)
    rw [hrr] at hgood
    have hwrap := trimHyphens_wrap (joinChar '-' (r :: rs)) (headJunk L)
      (lastJunk L) (joinChar_head_ok r rs hgood) (joinChar_last_ok rs r hgood)
    simpa using hwrap

/-- **C6**: for every filename without an explicit override, the generated
slug is the filename with its `.md` extension removed, lower-cased, every
maximal run of non-alphanumeric characters collapsed to a single hyphen,
and leading/trailing hyphens trimmed; in particular `"My First Post!.md"`
yields `"my-first-post"` and `"  weird--chars__.md"` yields
`"weird-chars"`. -/
theorem c6_slug_generation :
    (∀ filename : List Char, generateSlug filename none = slugSpec filename) ∧
    generateSlug ("My First Post!.md".toList) none = "my-first-post".toList ∧
    generateSlug ("  weird--chars__.md".toList) none = "weird-chars".toList := by
  refine ⟨fun fn => slugFromFilename_eq_slugSpec fn, ?_, ?_⟩ <;> decide

/-- **C10**: for every document whose frontmatter contains a non-empty
`slug` field, slug generation returns that string exactly as written —
no lower-casing, collapsing or trimming is applied to an explicit
override. -/
theorem c10_explicit_slug_verbatim (filename s : List Char) (h : s ≠ []) :
    generateSlug filename (some s) = s := by
  simp [generateSlug, h]

theorem c10_explicit_slug_verbatim_witness :
    "My Dir/UPPER case".toList ≠ ([] : List Char) ∧
    generateSlug ("My Post.md".toList) (some ("My Dir/UPPER case".toList)) =
      "My Dir/UPPER case".toList :=
  ⟨by decide, c10_explicit_slug_verbatim _ _ (by decide)⟩

/-- Characters allowed in a wikilink image target by
`/!\[\[([\w\s\-_.]+\.(jpg|jpeg|png|gif|webp|svg))\]\]/gi`. -/
def isWkTargetChar (c : Char) : Bool :=
  isWordChar c || isJsSpace c || c = '-' || c = '.'

/-- The image extensions the wikilink image regex accepts. -/
def imageExtensions : List (List Char) :=
  ["jpg".toList, "jpeg".toList, "png".toList, "gif".toList,
   "webp".toList, "svg".toList]

/-- Case-insensitive check that a target ends in a dot followed by one of
the accepted image extensions, with at least one target character before
that dot (the regex's `[\\w\\s\\-_.]+` must consume something before the
literal `\\.`, so an extension-only target such as `.jpg` does not
match). -/
def hasImageExtension (t : List Char) : Bool :=
  imageExtensions.any (fun e =>
    List.isSuffixOf ('.' :: e) (t.map Char.toLower) && e.length + 1 < t.length)

/-- Leftmost-match attempt for `WIKILINK_IMAGE_REGEX` at the head of the
input: `![[` followed by a maximal run of target characters consisting of
at least one character, then a dot and an image extension, followed by
`]]`.  Returns the captured target and the number of characters the match
consumes. -/
def tryWkImage (l : List Char) : Option (List Char × Nat) :=
  match l with
  | '!' :: '[' :: '[' :: rest =>
    let t := rest.takeWhile isWkTargetChar
    let after := rest.drop t.length
    if t.isEmpty then none
    else if hasImageExtension t && after.take 2 == [']', ']'] then
      some (t, 3 + t.length + 2)
    else none
  | _ => none

/-- Match of `https?:\/\/` with the `i` flag (scheme letters in either
case); returns the scheme text as written and the remaining input. -/
def trySchemeCI (l : List Char) : Option (List Char × List Char) :=
  match l with
  | a :: b :: c :: d :: rest =>
    if [a, b, c, d].map Char.toLower == "http".toList then
      match rest with
      | e :: r1 =>
        if e.toLower = 's' then
          match r1 with
          | ':' :: '/' :: '/' :: r2 => some ([a, b, c, d, e, ':', '/', '/'], r2)
          | _ => none
        else
          match rest with
          | ':' :: '/' :: '/' :: r2 => some ([a, b, c, d, ':', '/', '/'], r2)
          | _ => none
      | [] => none
    else none
  | _ => none

/-- Match of `https?:\/\/` without the `i` flag (exact lower case). -/
def trySchemeCS (l : List Char) : Option (List Char × List Char) :=
  match l with
  | 'h' :: 't' :: 't' :: 'p' :: rest =>
    match rest with
    | 's' :: ':' :: '/' :: '/' :: r => some ("https://".toList, r)
    | ':' :: '/' :: '/' :: r => some ("http://".toList, r)
    | _ => none
  | _ => none

/-- Leftmost-match attempt for `WIKILINK_EXTERNAL_URL_REGEX` at the head of
the input: `![[` then `https?://` (case-insensitive) then a maximal
nonempty run of non-`]` characters followed by `]]`.  Returns the captured
URL and the consumed length. -/
def tryWkUrl (l : List Char) : Option (List Char × Nat) :=
  match l with
  | '!' :: '[' :: '[' :: rest =>
    match trySchemeCI rest with
    | some (sch, r1) =>
      let run := r1.takeWhile (fun c => c ≠ ']')
      let after := r1.drop run.length
      if run.isEmpty then none
      else if after.take 2 == [']', ']'] then
        some (sch ++ run, 3 + sch.length + run.length + 2)
      else none
    | none => none
  | _ => none

/-- Leftmost-match attempt for `MARKDOWN_EXTERNAL_IMAGE_REGEX` at the head
of the input: `![` then a maximal run of non-`]` characters (the alt text,
may be empty), then `](`, then `https?://` (case-sensitive), then a maximal
nonempty run of non-`)` characters, then `)`.  Returns the captured
(alt, url) and the consumed length. -/
def tryMdImage (l : List Char) : Option ((List Char × List Char) × Nat) :=
  match l with
  | '!' :: '[' :: rest =>
    let alt := rest.takeWhile (fun c => c ≠ ']')
    match rest.drop alt.length with
    | ']' :: '(' :: r2 =>
      match trySchemeCS r2 with
      | some (sch, r3) =>
        let run := r3.takeWhile (fun c => c ≠ ')')
        let after := r3.drop run.length
        if run.isEmpty then none
        else if after.take 1 == [')'] then
          some ((alt, sch ++ run),
            2 + alt.length + 2 + sch.length + run.length + 1)
        else none
      | none => none
    | _ => none
  | _ => none

/-- Fuelled scan of a global regex over a text: at each position try the
matcher; on a match, record the captured groups and resume after the
match, otherwise advance one character.  The fuel bounds the number of
scanning steps; `scanMatches` supplies enough fuel for any input. -/
def scanMatchesF {G : Type} (tryM : List Char → Option (G × Nat)) :
    Nat → List Char → List G
  | 0, _ => []
  | _, [] => []
  | fuel + 1, c :: cs =>
    match tryM (c :: cs) with
    | some (g, k) => g :: scanMatchesF tryM fuel ((c :: cs).drop (max k 1))
    | none => scanMatchesF tryM fuel cs

/-- All matches of a global regex over a text, in document order. -/
def scanMatches {G : Type} (tryM : List Char → Option (G × Nat))
    (l : List Char) : List G :=
  scanMatchesF tryM l.length l

/-- Fuelled `String.prototype.replace` with a global regex and a
replacement function. -/
def replaceAllF {G : Type} (tryM : List Char → Option (G × Nat))
    (repl : G → List Char) : Nat → List Char → List Char
  | 0, l => l
  | _, [] => []
  | fuel + 1, c :: cs =>
    match tryM (c :: cs) with
    | some (g, k) => repl g ++ replaceAllF tryM repl fuel ((c :: cs).drop (max k 1))
    | none => c :: replaceAllF tryM repl fuel cs

/-- `text.replace(regex, fn)` for a global regex. -/
def replaceAll {G : Type} (tryM : List Char → Option (G × Nat))
    (repl : G → List Char) (l : List Char) : List Char :=
  replaceAllF tryM repl l.length l

/-- `extractImages`: every wikilink image target, duplicates preserved, in
first-seen order. -/
def extractImages (content : List Char) : List (List Char) :=
  scanMatches tryWkImage content

/-- The wikilink external URL matches of a text, in document order. -/
def wikilinkExternalUrls (content : List Char) : List (List Char) :=
  scanMatches tryWkUrl content

/-- The markdown-image external URL matches of a text, in document order. -/
def markdownExternalUrls (content : List Char) : List (List Char) :=
  (scanMatches tryMdImage content).map (fun g => g.2)

/-- `[...new Set(urls)]`: duplicates removed keeping the first occurrence
(JavaScript `Set` preserves insertion order). -/
def dedupFirstGo (seen : List (List Char)) : List (List Char) → List (List Char)
  | [] => []
  | x :: xs => if x ∈ seen then dedupFirstGo seen xs
               else x :: dedupFirstGo (x :: seen) xs

/-- First-occurrence deduplication. -/
def dedupFirst (l : List (List Char)) : List (List Char) :=
  dedupFirstGo [] l

/-- `extractExternalUrls`: wikilink URL matches first, then markdown-image
URL matches, deduplicated on first occurrence in that combined order. -/
def extractExternalUrls (content : List Char) : List (List Char) :=
  dedupFirst (wikilinkExternalUrls content ++ markdownExternalUrls content)

mutual
/-- The inline-code segment split of one line
(`line.split(/(`[^`]+`)/g)` of the source): scanning state outside any
tentative inline-code span; `cur` holds the current non-match segment
reversed.  Produces the interleaved non-match and match segments. -/
def inlineSegsOut (cur : List Char) : List Char → List (List Char)
  | [] => [cur.reverse]
  | c :: cs =>
    if c = '\x60' then inlineSegsTent cur [] cs
    else inlineSegsOut (c :: cur) cs

/-- Scanning state after an opening backtick: `tent` holds the tentative
span body (reversed).  A closing backtick over a nonempty body completes a
match; a backtick over an empty body demotes the opener to plain text;
end of line demotes the whole tentative span to plain text. -/
def inlineSegsTent (cur tent : List Char) : List Char → List (List Char)
  | [] => [cur.reverse ++ '\x60' :: tent.reverse]
  | c :: cs =>
    if c = '\x60' then
      if tent.isEmpty then inlineSegsTent ('\x60' :: cur) [] cs
      else cur.reverse :: ('\x60' :: (tent.reverse ++ ['\x60'])) :: inlineSegsOut [] cs
    else inlineSegsTent cur (c :: tent) cs
end

/-- Whether the last character of a list is a backtick. -/
def lastIsBacktick : List Char → Bool
  | [] => false
  | [c] => c = '\x60'
  | _ :: c :: rest => lastIsBacktick (c :: rest)

/-- Whether a segment both starts and ends with a backtick (the source's
test, via `startsWith` and `endsWith`, for a segment to keep unescaped). -/
def keepSegment (s : List Char) : Bool :=
  match s with
  | [] => false
  | a :: rest => a = '\x60' && lastIsBacktick (a :: rest)

/-- `.replace(/\{/g, '\\{').replace(/\}/g, '\\}')`: backslash-escape every
curly brace. -/
def escapeBracesChars : List Char → List Char
  | [] => []
  | c :: cs =>
    if c = '\x7b' then '\\' :: '\x7b' :: escapeBracesChars cs
    else if c = '\x7d' then '\\' :: '\x7d' :: escapeBracesChars cs
    else c :: escapeBracesChars cs

/-- Per-line escaping: split on inline-code spans, keep the spans, escape
braces in the other segments, rejoin. -/
def escapeLine (line : List Char) : List Char :=
  ((inlineSegsOut [] line).map
    (fun seg => if keepSegment seg then seg else escapeBracesChars seg)).flatten

/-- `line.trim().startsWith('```')`: a fence-toggle line. -/
def isFenceLine (line : List Char) : Bool :=
  List.isPrefixOf "```".toList (jsTrim line)

/-- The line walk of `escapeCurlyBraces`: fence lines and lines inside a
fenced block pass through unchanged; other lines are escaped per
segment. -/
def escapeLinesGo : Bool → List (List Char) → List (List Char)
  | _, [] => []
  | inCodeBlock, line :: rest =>
    if isFenceLine line then line :: escapeLinesGo (!inCodeBlock) rest
    else if inCodeBlock then line :: escapeLinesGo inCodeBlock rest
    else escapeLine line :: escapeLinesGo inCodeBlock rest

/-- `escapeCurlyBraces(content)`. -/
def escapeCurlyBraces (content : List Char) : List Char :=
  joinChar '\n' (escapeLinesGo false (splitOnChar '\n' content))

/-- First-match lookup in an association list (`Map.get`). -/
def lookupAssoc (m : List (List Char × List Char)) (k : List Char) :
    Option (List Char) :=
  match m with
  | [] => none
  | (k2, v) :: rest => if k2 == k then some v else lookupAssoc rest k

/-- `.replace(/[-_]/g, ' ')`. -/
def dashUnderscoreToSpace (l : List Char) : List Char :=
  l.map (fun c => if c = '-' || c = '_' then ' ' else c)

/-- `.replace(/\.\w+$/, "")`: remove a final dot-extension made of word
characters, when present. -/
def stripDotExtension (l : List Char) : List Char :=
  let rev := l.reverse
  let w := rev.takeWhile isWordChar
  if w.isEmpty then l
  else
    match rev.drop w.length with
    | '.' :: r => r.reverse
    | _ => l

/-- Lower-case hexadecimal digit (`[a-f0-9]`). -/
def isHexLower (c : Char) : Bool :=
  ('0' ≤ c && c ≤ '9') || ('a' ≤ c && c ≤ 'f')

/-- The source's `replace` of the pattern hyphen-then-exactly-eight
lower-case hex digits at the end of the string (the content-hash suffix),
removed when present. -/
def stripHashSuffix (l : List Char) : List Char :=
  let rev := l.reverse
  if (rev.take 8).length = 8 && (rev.take 8).all isHexLower then
    match rev.drop 8 with
    | '-' :: r => r.reverse
    | _ => l
  else l

/-- `url.split('/').pop() || 'image'`. -/
def urlLastSegment (url : List Char) : List Char :=
  match (splitOnChar '/' url).getLast? with
  | some seg => if seg.isEmpty then "image".toList else seg
  | none => "image".toList

/-- Replacement for a wikilink image:
`![name](@assets/blog/slug/name)`. -/
def wkImageReplacement (slug name : List Char) : List Char :=
  "![".toList ++ name ++ "](@assets/blog/".toList ++ slug ++ "/".toList ++
    name ++ ")".toList

/-- Alt text derived from a downloaded local filename: separators to
spaces, extension stripped, hash suffix stripped (in the source's order). -/
def localAltText (localFilename : List Char) : List Char :=
  stripHashSuffix (stripDotExtension (dashUnderscoreToSpace localFilename))

/-- Replacement for a wikilink external URL: the local asset reference when
the URL was downloaded, otherwise a standard markdown image pointing at the
original URL with alt text from the URL's last path segment. -/
def wkUrlReplacement (slug : List Char) (urlToLocal : List (List Char × List Char))
    (url : List Char) : List Char :=
  match lookupAssoc urlToLocal url with
  | some f =>
    "![".toList ++ localAltText f ++ "](@assets/blog/".toList ++ slug ++
      "/".toList ++ f ++ ")".toList
  | none =>
    let p := urlLastSegment url
    let alt0 := stripDotExtension (dashUnderscoreToSpace p)
    let alt := if alt0.isEmpty then "Image".toList else alt0
    "![".toList ++ alt ++ "](".toList ++ url ++ ")".toList

/-- Replacement for a standard markdown image with an external URL: the
local asset reference when downloaded (alt kept unless empty), otherwise
the original match unchanged. -/
def mdImageReplacement (slug : List Char) (urlToLocal : List (List Char × List Char))
    (g : List Char × List Char) : List Char :=
  match lookupAssoc urlToLocal g.2 with
  | some f =>
    "![".toList ++ (if g.1.isEmpty then f else g.1) ++
      "](@assets/blog/".toList ++ slug ++ "/".toList ++ f ++ ")".toList
  | none => "![".toList ++ g.1 ++ "](".toList ++ g.2 ++ ")".toList

/-- `transformContent(content, slug, urlToLocal)`: the three ordered
rewrite passes, then the escape pass, then a trim. -/
def transformContent (content slug : List Char)
    (urlToLocal : List (List Char × List Char)) : List Char :=
  let t1 := replaceAll tryWkImage (wkImageReplacement slug) content
  let t2 := replaceAll tryWkUrl (wkUrlReplacement slug urlToLocal) t1
  let t3 := replaceAll tryMdImage (mdImageReplacement slug urlToLocal) t2
  jsTrim (escapeCurlyBraces t3)

/-- The fence state before a line, as the specification words it: the
toggle, over the preceding lines, of "trimmed form starts with triple
backticks". -/
def fenceState (b : Bool) (ls : List (List Char)) : Bool :=
  ls.foldl (fun st line => if isFenceLine line then !st else st) b

theorem escapeLinesGo_length (b : Bool) (ls : List (List Char)) :
    (escapeLinesGo b ls).length = ls.length := by
  induction ls generalizing b with
  | nil => rfl
  | cons line rest ih =>
    by_cases hf : isFenceLine line
    · simp [escapeLinesGo, hf, ih]
    · by_cases hb : b <;> simp [escapeLinesGo, hf, hb, ih]

theorem escapeLinesGo_preserved (ls : List (List Char)) :
    ∀ (b : Bool) (i : Nat) (hi : i < ls.length),
      isFenceLine (ls.get ⟨i, hi⟩) = true ∨ fenceState b (ls.take i) = true →
      (escapeLinesGo b ls)[i]? = some (ls.get ⟨i, hi⟩) := by
  induction ls with
  | nil => intro b i hi; simp at hi
  | cons line rest ih =>
    intro b i hi hcond
    cases i with
    | zero =>
      have hcond0 : isFenceLine line = true ∨ b = true := by
        simpa [fenceState] using hcond
      by_cases hf : isFenceLine line
      · simp [escapeLinesGo, hf]
      · have hb : b = true := by
          rcases hcond0 with h | h
          · exact absurd h hf
          · exact h
        simp [escapeLinesGo, hf, hb]
    | succ j =>
      have hj : j < rest.length := by simpa using hi
      have hstep : fenceState b (List.take (j + 1) (line :: rest)) =
          fenceState (if isFenceLine line then !b else b) (rest.take j) := by
        simp [fenceState, List.take_succ_cons]
      have hcond' : isFenceLine (rest.get ⟨j, hj⟩) = true ∨
          fenceState (if isFenceLine line then !b else b) (rest.take j) = true := by
        rcases hcond with h | h
        · left; simpa using h
        · right; rw [← hstep]; exact h
      by_cases hf : isFenceLine line
      · have := ih (!b) j hj (by simpa [hf] using hcond')
        simpa [escapeLinesGo, hf] using this
      · have := ih b j hj (by simpa [hf] using hcond')
        by_cases hb : b <;> simpa [escapeLinesGo, hf, hb] using this

theorem lastIsBacktick_concat (l : List Char) (c : Char) :
    lastIsBacktick (l ++ [c]) = (c = '\x60') := by
  induction l with
  | nil => simp [lastIsBacktick]
  | cons a as ih =>
    cases as with
    | nil => simp [lastIsBacktick]
    | cons b bs => simpa [lastIsBacktick] using ih

theorem keepSegment_span (inner : List Char) :
    keepSegment ('\x60' :: (inner ++ ['\x60'])) = true := by
  have h1 : lastIsBacktick ('\x60' :: (inner ++ ['\x60'])) = true := by
    have h2 : '\x60' :: (inner ++ ['\x60']) = ('\x60' :: inner) ++ ['\x60'] := by
      simp
    rw [h2, lastIsBacktick_concat]
  simp [keepSegment, h1]

theorem keepSegment_clean (s : List Char) (h : ∀ c ∈ s, c ≠ '\x60') :
    keepSegment s = false := by
  cases s with
  | nil => rfl
  | cons a rest =>
    have ha : a ≠ '\x60' := h a (by simp)
    simp [keepSegment, ha]

theorem inlineSegsOut_clean_front (pre : List Char)
    (hpre : ∀ c ∈ pre, c ≠ '\x60') :
    ∀ (cur l : List Char),
      inlineSegsOut cur (pre ++ l) = inlineSegsOut (pre.reverse ++ cur) l := by
  induction pre with
  | nil => intro cur l; simp
  | cons c pre' ih =>
    intro cur l
    have hc : c ≠ '\x60' := hpre c (by simp)
    have step : inlineSegsOut cur ((c :: pre') ++ l) =
        inlineSegsOut (c :: cur) (pre' ++ l) := by
      simp [inlineSegsOut, hc, List.append_eq]
    rw [step, ih (fun d hd => hpre d (by simp [hd])) (c :: cur) l]
    simp

theorem inlineSegsTent_clean_body (inner : List Char)
    (hinner : ∀ c ∈ inner, c ≠ '\x60') :
    ∀ (cur tent l : List Char),
      inlineSegsTent cur tent (inner ++ l) =
        inlineSegsTent cur (inner.reverse ++ tent) l := by
  induction inner with
  | nil => intro cur tent l; simp
  | cons c inner' ih =>
    intro cur tent l
    have hc : c ≠ '\x60' := hinner c (by simp)
    have step : inlineSegsTent cur tent ((c :: inner') ++ l) =
        inlineSegsTent cur (c :: tent) (inner' ++ l) := by
      simp [inlineSegsTent, hc, List.append_eq]
    rw [step, ih (fun d hd => hinner d (by simp [hd])) cur (c :: tent) l]
    simp

theorem inlineSegsOut_span_decomp (pre inner post : List Char)
    (hpre : ∀ c ∈ pre, c ≠ '\x60') (hinner : ∀ c ∈ inner, c ≠ '\x60')
    (hne : inner ≠ []) :
    inlineSegsOut [] (pre ++ '\x60' :: (inner ++ '\x60' :: post)) =
      pre :: ('\x60' :: (inner ++ ['\x60'])) :: inlineSegsOut [] post := by
  rw [inlineSegsOut_clean_front pre hpre]
  have h1 : inlineSegsOut (pre.reverse ++ []) ('\x60' :: (inner ++ '\x60' :: post)) =
      inlineSegsTent (pre.reverse ++ []) [] (inner ++ '\x60' :: post) := by
    simp [inlineSegsOut]
  rw [h1, inlineSegsTent_clean_body inner hinner]
  have h2 : inlineSegsTent (pre.reverse ++ []) (inner.reverse ++ [])
      ('\x60' :: post) =
      (pre.reverse ++ []).reverse ::
        ('\x60' :: (((inner.reverse ++ []).reverse) ++ ['\x60'])) ::
        inlineSegsOut [] post := by
    simp [inlineSegsTent, List.isEmpty_iff, hne]
  rw [h2]
  simp

theorem escapeLine_span (pre inner post : List Char)
    (hpre : ∀ c ∈ pre, c ≠ '\x60') (hinner : ∀ c ∈ inner, c ≠ '\x60')
    (hne : inner ≠ []) :
    escapeLine (pre ++ '\x60' :: (inner ++ '\x60' :: post)) =
      escapeBracesChars pre ++ '\x60' :: (inner ++ '\x60' :: escapeLine post) := by
  unfold escapeLine
  rw [inlineSegsOut_span_decomp pre inner post hpre hinner hne]
  simp [keepSegment_span, keepSegment_clean pre hpre]

theorem escapeLine_clean (l : List Char) (h : ∀ c ∈ l, c ≠ '\x60') :
    escapeLine l = escapeBracesChars l := by
  unfold escapeLine
  have : inlineSegsOut [] (l ++ []) = inlineSegsOut (l.reverse ++ []) [] :=
    inlineSegsOut_clean_front l h [] []
  simp only [List.append_nil] at this
  rw [this]
  simp [inlineSegsOut, keepSegment_clean l h]

/-- **C2**: the curly-brace escape pass leaves every line inside a fenced
code block (fence state toggled by any line whose trimmed form starts with
triple backticks) and every inline-code span unchanged, and in all
remaining prose replaces each literal opening brace with a
backslash-escaped opening brace and each literal closing brace with a
backslash-escaped closing brace; in particular the line
``Use `{braces}` in code`` is untouched inside a fence, and outside a
fence only the text outside the backtick span is escaped. -/
theorem c2_escape_invariants :
    (∀ (b : Bool) (ls : List (List Char)),
      (escapeLinesGo b ls).length = ls.length) ∧
    (∀ (ls : List (List Char)) (b : Bool) (i : Nat) (hi : i < ls.length),
      isFenceLine (ls.get ⟨i, hi⟩) = true ∨ fenceState b (ls.take i) = true →
      (escapeLinesGo b ls)[i]? = some (ls.get ⟨i, hi⟩)) ∧
    (∀ pre inner post : List Char,
      (∀ c ∈ pre, c ≠ '\x60') → (∀ c ∈ inner, c ≠ '\x60') → inner ≠ [] →
      escapeLine (pre ++ '\x60' :: (inner ++ '\x60' :: post)) =
        escapeBracesChars pre ++ '\x60' :: (inner ++ '\x60' :: escapeLine post)) ∧
    (∀ l : List Char, (∀ c ∈ l, c ≠ '\x60') →
      escapeLine l = escapeBracesChars l) ∧
    escapeCurlyBraces ("```\nUse `\x7bbraces\x7d` in code\n```".toList) =
      "```\nUse `\x7bbraces\x7d` in code\n```".toList ∧
    escapeCurlyBraces ("Use `\x7bbraces\x7d` in code".toList) =
      "Use `\x7bbraces\x7d` in code".toList ∧
    escapeCurlyBraces ("a\x7bb\x7d and `\x7bc\x7d` end".toList) =
      "a\\\x7bb\\\x7d and `\x7bc\x7d` end".toList :=
  ⟨escapeLinesGo_length, fun ls => escapeLinesGo_preserved ls, escapeLine_span,
    escapeLine_clean, by decide, by decide, by decide⟩

theorem c2_escape_invariants_witness :
    (escapeLinesGo false
      ["```".toList, "x\x7by\x7d".toList, "```".toList])[1]? =
        some ("x\x7by\x7d".toList) ∧
    escapeLine ("a\x7b ".toList ++ '\x60' ::
        ("code\x7b".toList ++ '\x60' :: " \x7dz".toList)) =
      escapeBracesChars ("a\x7b ".toList) ++ '\x60' ::
        ("code\x7b".toList ++ '\x60' :: escapeLine (" \x7dz".toList)) := by
  constructor
  · exact c2_escape_invariants.2.1
      ["```".toList, "x\x7by\x7d".toList, "```".toList] false 1 (by decide)
      (Or.inr (by decide))
  · exact c2_escape_invariants.2.2.1 ("a\x7b ".toList) ("code\x7b".toList)
      (" \x7dz".toList) (by decide) (by decide) (by decide)

theorem dedupFirstGo_not_mem_seen :
    ∀ (l : List (List Char)) (seen : List (List Char)) (x : List Char),
      x ∈ dedupFirstGo seen l → x ∉ seen := by
  intro l
  induction l with
  | nil => intro seen x hx; simp [dedupFirstGo] at hx
  | cons y ys ih =>
    intro seen x hx
    by_cases hy : y ∈ seen
    · rw [dedupFirstGo, if_pos hy] at hx
      exact ih seen x hx
    · rw [dedupFirstGo, if_neg hy] at hx
      rcases List.mem_cons.mp hx with h1 | h2
      · subst h1; exact hy
      · intro hxs
        exact ih (y :: seen) x h2 (by simp [hxs])

theorem dedupFirstGo_nodup :
    ∀ (l : List (List Char)) (seen : List (List Char)),
      (dedupFirstGo seen l).Nodup := by
  intro l
  induction l with
  | nil => intro seen; simp [dedupFirstGo]
  | cons y ys ih =>
    intro seen
    by_cases hy : y ∈ seen
    · rw [dedupFirstGo, if_pos hy]; exact ih seen
    · rw [dedupFirstGo, if_neg hy]
      refine List.nodup_cons.mpr ⟨?_, ih (y :: seen)⟩
      intro hmem
      exact dedupFirstGo_not_mem_seen ys (y :: seen) y hmem (by simp)

theorem dedupFirstGo_sublist :
    ∀ (l : List (List Char)) (seen : List (List Char)),
      (dedupFirstGo seen l).Sublist l := by
  intro l
  induction l with
  | nil => intro seen; simp [dedupFirstGo]
  | cons y ys ih =>
    intro seen
    by_cases hy : y ∈ seen
    · rw [dedupFirstGo, if_pos hy]
      exact (ih seen).trans (List.sublist_cons_self y ys)
    · rw [dedupFirstGo, if_neg hy]
      exact (ih (y :: seen)).cons₂ y

theorem dedupFirstGo_mem_iff :
    ∀ (l : List (List Char)) (seen : List (List Char)) (x : List Char),
      x ∈ dedupFirstGo seen l ↔ (x ∈ l ∧ x ∉ seen) := by
  intro l
  induction l with
  | nil => intro seen x; simp [dedupFirstGo]
  | cons y ys ih =>
    intro seen x
    by_cases hy : y ∈ seen
    · rw [dedupFirstGo, if_pos hy, ih seen x]
      constructor
      · rintro ⟨h1, h2⟩; exact ⟨by simp [h1], h2⟩
      · rintro ⟨h1, h2⟩
        rcases List.mem_cons.mp h1 with h3 | h3
        · subst h3; exact absurd hy h2
        · exact ⟨h3, h2⟩
    · rw [dedupFirstGo, if_neg hy]
      constructor
      · intro hx
        rcases List.mem_cons.mp hx with h1 | h1
        · subst h1; exact ⟨by simp, hy⟩
        · obtain ⟨h2, h3⟩ := (ih (y :: seen) x).mp h1
          exact ⟨by simp [h2], fun hs => h3 (by simp [hs])⟩
      · rintro ⟨h1, h2⟩
        by_cases hxy : x = y
        · subst hxy; simp
        · rcases List.mem_cons.mp h1 with h3 | h3
          · exact absurd h3 hxy
          · exact List.mem_cons.mpr (Or.inr ((ih (y :: seen) x).mpr
              ⟨h3, by simp [hxy, h2]⟩))

/-- Deduplication as the amended claim words it: walk the list in order
and keep an element exactly when its value has not occurred earlier in
the walked prefix (`pre` is the full prefix already walked, kept or
not). -/
def firstOccGo (pre : List (List Char)) : List (List Char) → List (List Char)
  | [] => []
  | x :: xs =>
    if x ∈ pre then firstOccGo (pre ++ [x]) xs
    else x :: firstOccGo (pre ++ [x]) xs

/-- The first occurrence of every value, in order of first occurrence. -/
def firstOcc (l : List (List Char)) : List (List Char) :=
  firstOccGo [] l

theorem dedupFirstGo_eq_firstOccGo :
    ∀ (l seen pre : List (List Char)), (∀ x, x ∈ seen ↔ x ∈ pre) →
      dedupFirstGo seen l = firstOccGo pre l := by
  intro l
  induction l with
  | nil => intro seen pre h; rfl
  | cons x xs ih =>
    intro seen pre h
    by_cases hx : x ∈ seen
    · rw [dedupFirstGo, if_pos hx, firstOccGo, if_pos ((h x).mp hx)]
      exact ih seen (pre ++ [x]) (fun y => by
        rw [h y]
        constructor
        · intro hy; simp [hy]
        · intro hy
          rcases List.mem_append.mp hy with hy | hy
          · exact hy
          · simp at hy; rw [hy]; exact (h x).mp hx)
    · rw [dedupFirstGo, if_neg hx, firstOccGo,
        if_neg (fun hp => hx ((h x).mpr hp))]
      congr 1
      exact ih (x :: seen) (pre ++ [x]) (fun y => by simp [h y, or_comm])

/-- `[...new Set(urls)]` keeps exactly the first occurrence of every
value, in order of first occurrence. -/
theorem dedupFirst_eq_firstOcc (l : List (List Char)) :
    dedupFirst l = firstOcc l :=
  dedupFirstGo_eq_firstOccGo l [] [] (by simp)

theorem scanMatchesF_fuel {G : Type} (tryM : List Char → Option (G × Nat)) :
    ∀ (f1 : Nat) (l : List Char) (f2 : Nat), l.length ≤ f1 → l.length ≤ f2 →
      scanMatchesF tryM f1 l = scanMatchesF tryM f2 l := by
  intro f1
  induction f1 with
  | zero =>
    intro l f2 h1 h2
    have : l = [] := List.length_eq_zero.mp (Nat.le_zero.mp h1)
    subst this
    cases f2 <;> rfl
  | succ n ih =>
    intro l f2 h1 h2
    cases l with
    | nil => cases f2 <;> rfl
    | cons c cs =>
      cases f2 with
      | zero => simp at h2
      | succ m =>
        rw [scanMatchesF, scanMatchesF]
        cases htry : tryM (c :: cs) with
        | none =>
          exact ih cs m (by simpa using h1) (by simpa using h2)
        | some gk =>
          obtain ⟨g, k⟩ := gk
          dsimp only
          congr 1
          have hlen : ((c :: cs).drop (max k 1)).length =
              (c :: cs).length - max k 1 := List.length_drop ..
          have hmax : 1 ≤ max k 1 := Nat.le_max_right k 1
          apply ih
          · rw [hlen]
            simp only [List.length_cons] at h1 ⊢
            omega
          · rw [hlen]
            simp only [List.length_cons] at h2 ⊢
            omega

/-- A wikilink image embed for a target. -/
def wkEmbed (name : List Char) : List Char :=
  "![[".toList ++ name ++ "]]".toList

/-- A target the wikilink image regex accepts: nonempty, all target
characters, ending in a dot-extension with at least one character before
the dot. -/
def validWkTarget (name : List Char) : Bool :=
  !name.isEmpty && name.all isWkTargetChar && hasImageExtension name

theorem takeWhile_all_then_stop (p : Char → Bool) (a : List Char) (b : Char)
    (bs : List Char) (ha : ∀ c ∈ a, p c = true) (hb : p b = false) :
    (a ++ b :: bs).takeWhile p = a := by
  induction a with
  | nil => simp [List.takeWhile_cons, hb]
  | cons c cs ih =>
    have hc := ha c (by simp)
    simp only [List.cons_append, List.takeWhile_cons, hc, if_true]
    rw [ih (fun d hd => ha d (by simp [hd]))]

theorem drop_embed_tail (name rest : List Char) :
    ('!' :: '[' :: '[' :: (name ++ ']' :: ']' :: rest)).drop
      (3 + name.length + 2) = rest := by
  have h1 : '!' :: '[' :: '[' :: (name ++ ']' :: ']' :: rest) =
      ('!' :: '[' :: '[' :: (name ++ [']', ']'])) ++ rest := by simp
  have h2 : ('!' :: '[' :: '[' :: (name ++ [']', ']'])).length =
      3 + name.length + 2 := by
    simp [List.length_append]
    omega
  rw [h1, ← h2, List.drop_left]

theorem tryWkImage_at_embed (name rest : List Char)
    (h : validWkTarget name = true) :
    tryWkImage ('!' :: '[' :: '[' :: (name ++ ']' :: ']' :: rest)) =
      some (name, 3 + name.length + 2) := by
  have hne : name.isEmpty = false := by
    unfold validWkTarget at h
    simp only [Bool.and_eq_true, Bool.not_eq_true'] at h
    exact h.1.1
  have hall : ∀ c ∈ name, isWkTargetChar c = true := by
    unfold validWkTarget at h
    simp only [Bool.and_eq_true, List.all_eq_true] at h
    exact h.1.2
  have hext : hasImageExtension name = true := by
    unfold validWkTarget at h
    simp only [Bool.and_eq_true] at h
    exact h.2
  have hstop : isWkTargetChar ']' = false := by decide
  have htake : (name ++ ']' :: ']' :: rest).takeWhile isWkTargetChar = name :=
    takeWhile_all_then_stop isWkTargetChar name ']' (']' :: rest) hall hstop
  have hdrop : (name ++ ']' :: ']' :: rest).drop name.length =
      ']' :: ']' :: rest := by
    rw [show name ++ ']' :: ']' :: rest = name ++ (']' :: ']' :: rest)
      from rfl, List.drop_left]
  show (if ((name ++ ']' :: ']' :: rest).takeWhile isWkTargetChar).isEmpty
      then none
      else if hasImageExtension
            ((name ++ ']' :: ']' :: rest).takeWhile isWkTargetChar) &&
          ((name ++ ']' :: ']' :: rest).drop
              ((name ++ ']' :: ']' :: rest).takeWhile
                isWkTargetChar).length).take 2 == [']', ']'] then
        some ((name ++ ']' :: ']' :: rest).takeWhile isWkTargetChar,
          3 + ((name ++ ']' :: ']' :: rest).takeWhile
            isWkTargetChar).length + 2)
      else none) = some (name, 3 + name.length + 2)
  rw [htake, hdrop]
  simp [hne, hext]

/-- Every wikilink image embed in a document of embeds is matched:
duplicates preserved, in document order. -/
theorem extractImages_embeds :
    ∀ (names : List (List Char)), (∀ n ∈ names, validWkTarget n = true) →
      extractImages ((names.map wkEmbed).flatten) = names := by
  intro names
  induction names with
  | nil => intro h; rfl
  | cons n ns ih =>
    intro h
    have hn := h n (by simp)
    have hshape : ((n :: ns).map wkEmbed).flatten =
        '!' :: '[' :: '[' :: (n ++ ']' :: ']' :: (ns.map wkEmbed).flatten) := by
      show (wkEmbed n) ++ (ns.map wkEmbed).flatten = _
      unfold wkEmbed
      simp
    unfold extractImages scanMatches
    rw [hshape]
    rw [show ('!' :: '[' :: '[' ::
        (n ++ ']' :: ']' :: (ns.map wkEmbed).flatten)).length =
      ('[' :: '[' :: (n ++ ']' :: ']' :: (ns.map wkEmbed).flatten)).length + 1
      from rfl]
    rw [scanMatchesF]
    rw [tryWkImage_at_embed n _ hn]
    dsimp only
    have hmax : max (3 + n.length + 2) 1 = 3 + n.length + 2 := by omega
    rw [hmax, drop_embed_tail]
    congr 1
    have hlen1 : (ns.map wkEmbed).flatten.length ≤
        ('[' :: '[' :: (n ++ ']' :: ']' :: (ns.map wkEmbed).flatten)).length := by
      simp [List.length_append]
      omega
    rw [scanMatchesF_fuel tryWkImage _ _ ((ns.map wkEmbed).flatten.length)
      hlen1 (Nat.le_refl _)]
    exact ih (fun m hm => h m (by simp [hm]))

/-- A single-position match attempt for either external-URL syntax, used to
state the specification's "document order across both syntaxes": at each
position the wikilink form or the markdown-image form may match. -/
def tryAnyExternalUrl (l : List Char) : Option (List Char × Nat) :=
  match tryWkUrl l with
  | some r => some r
  | none =>
    match tryMdImage l with
    | some (g, k) => some (g.2, k)
    | none => none

/-- External-URL extraction as the claim words it: all matches of both
syntaxes in order of first occurrence in the document, then deduplicated
keeping first occurrences. -/
def docOrderExternalUrls (content : List Char) : List (List Char) :=
  dedupFirst (scanMatches tryAnyExternalUrl content)

/-- Input on which the two orderings differ: a markdown-image URL occurs
before a wikilink URL. -/
def c5Input : List Char :=
  "![a](https://m.example/x.png) then ![[https://w.example/y.png]]".toList

/-- **C5 counterexample**: the code extracts all wikilink URLs first and
all markdown-image URLs second, so on a document whose first external URL
uses the markdown syntax the result is not in order of first occurrence in
the document. -/
theorem c5_counterexample :
    extractExternalUrls c5Input ≠ docOrderExternalUrls c5Input ∧
    docOrderExternalUrls c5Input =
      ["https://m.example/x.png".toList, "https://w.example/y.png".toList] ∧
    extractExternalUrls c5Input =
      ["https://w.example/y.png".toList, "https://m.example/x.png".toList] := by
  refine ⟨?_, ?_, ?_⟩ <;> decide

/-- **C5 (amended)**: external-URL extraction returns all wikilink-syntax
URL matches in document order followed by all markdown-syntax URL matches
in document order, deduplicated keeping the first occurrence in that
combined order (document order is preserved within each syntax, not across
the two); local-image extraction returns every wikilink image match
including duplicates, in first-seen order. Conjuncts: (1) the Set spread
keeps exactly the first occurrence of every value, in order of first
occurrence; (2) hence external-URL extraction equals the first-occurrence
dedup of the wikilink matches followed by the markdown matches; (3) the
result has no duplicates, is a sublist of that combined list, and holds
exactly its values; (4) a document made of wikilink image embeds extracts
exactly their targets, duplicates preserved, in document order; (5) a
concrete duplicated local image is extracted twice; (6) on a document
where one URL appears in wikilink syntax, a second in markdown syntax,
and the first again in markdown syntax, the first occurrence of each is
kept in combined order. -/
theorem c5_extraction_amended :
    (∀ l : List (List Char), dedupFirst l = firstOcc l) ∧
    (∀ content : List Char,
      extractExternalUrls content =
        firstOcc (wikilinkExternalUrls content ++
          markdownExternalUrls content)) ∧
    (∀ content : List Char,
      (extractExternalUrls content).Nodup ∧
      (extractExternalUrls content).Sublist
        (wikilinkExternalUrls content ++ markdownExternalUrls content) ∧
      (∀ u : List Char, u ∈ extractExternalUrls content ↔
        u ∈ wikilinkExternalUrls content ++ markdownExternalUrls content)) ∧
    (∀ names : List (List Char), (∀ n ∈ names, validWkTarget n = true) →
      extractImages ((names.map wkEmbed).flatten) = names) ∧
    extractImages ("![[a.png]] mid ![[a.png]]".toList) =
      ["a.png".toList, "a.png".toList] ∧
    extractExternalUrls
      ("![[https://a.io/1.png]] ![x](https://b.io/2.png) ![y](https://a.io/1.png)".toList) =
      ["https://a.io/1.png".toList, "https://b.io/2.png".toList] := by
  refine ⟨dedupFirst_eq_firstOcc, fun content => dedupFirst_eq_firstOcc _,
    fun content => ⟨?_, ?_, ?_⟩, extractImages_embeds, by decide, by decide⟩
  · exact dedupFirstGo_nodup _ []
  · exact dedupFirstGo_sublist _ []
  · intro u
    rw [extractExternalUrls, dedupFirst, dedupFirstGo_mem_iff]
    simp

/-- Witness for C5 (amended): conjunct (4) applied to three concrete
valid targets with a duplicate yields both occurrences in document
order. -/
theorem c5_extraction_amended_witness :
    extractImages ((["a.png".toList, "b.jpg".toList,
        "a.png".toList].map wkEmbed).flatten) =
      ["a.png".toList, "b.jpg".toList, "a.png".toList] :=
  c5_extraction_amended.2.2.2.1
    ["a.png".toList, "b.jpg".toList, "a.png".toList] (by decide)

/-- The outcome the HTTP runtime reports for a request to one URL: a
connection error, a timeout, or a response with a status code, an optional
`Location` header, and whether streaming the body to the destination file
succeeds (`writeOk`). -/
inductive FetchEvent where
  | connError : FetchEvent
  | timeout : FetchEvent
  | response (status : Nat) (location : Option (List Char)) (writeOk : Bool) :
      FetchEvent
deriving DecidableEq

/-- The redirect status codes the fetcher follows. -/
def isRedirectStatus (s : Nat) : Bool :=
  s = 301 || s = 302 || s = 307 || s = 308

/-- Scheme-and-host prefix of a URL. -/
def urlOrigin (base : List Char) : List Char :=
  match trySchemeCI base with
  | some (sch, rest) => sch ++ rest.takeWhile (fun c => c ≠ '/')
  | none => base

/-- Everything up to and including the last slash of a URL. -/
def urlDirOf (base : List Char) : List Char :=
  (base.reverse.dropWhile (fun c => c ≠ '/')).reverse

/-- The source's redirect-target computation: an absolute location
(starting with `http`) is used as-is, otherwise the location is resolved
against the original URL.  The resolution models the WHATWG `new URL(rel,
base)` of the runtime (an external API), restricted to the cases met here:
root-relative locations against the origin, other relative locations
against the base's directory. -/
def resolveLocation (loc base : List Char) : List Char :=
  if List.isPrefixOf "http".toList loc then loc
  else if loc.head? = some '/' then urlOrigin base ++ loc
  else urlDirOf base ++ loc

/-- `downloadImage(url, destPath)` against a world of responses: resolves
`some false` on a connection error, a timeout, a non-200 terminal status or
a failed body write; follows redirect statuses with a `Location` header
recursively; resolves `some true` exactly when a terminal 200 body is
fully streamed.  The fuel bounds the redirect depth that can be observed;
`none` means the promise is still pending (the recursion has no depth
bound of its own). -/
def downloadImage (world : List Char → FetchEvent) :
    Nat → List Char → Option Bool
  | 0, _ => none
  | fuel + 1, url =>
    match world url with
    | .connError => some false
    | .timeout => some false
    | .response status loc writeOk =>
      if isRedirectStatus status then
        match loc with
        | some redirectUrl =>
          downloadImage world fuel (resolveLocation redirectUrl url)
        | none => some false
      else if status ≠ 200 then some false
      else some writeOk

/-- The terminal URL of a redirect chain, as the specification describes
it: follow the `Location` of every redirect response; `none` when the
chain is longer than the fuel. -/
def terminalUrl (world : List Char → FetchEvent) :
    Nat → List Char → Option (List Char)
  | 0, _ => none
  | fuel + 1, url =>
    match world url with
    | .response status (some loc) _ =>
      if isRedirectStatus status then
        terminalUrl world fuel (resolveLocation loc url)
      else some url
    | _ => some url

/-- **C3**: the image fetch never raises — every failure class (connection
error, timeout, redirect without a usable target, non-200 terminal status,
write-stream error) resolves the promise to `false`, and it resolves to
`true` only when a response body was fully streamed to the destination. -/
theorem c3_download_never_raises :
    (∀ (world : List Char → FetchEvent) (fuel : Nat) (url : List Char),
      world url = FetchEvent.connError →
      downloadImage world (fuel + 1) url = some false) ∧
    (∀ (world : List Char → FetchEvent) (fuel : Nat) (url : List Char),
      world url = FetchEvent.timeout →
      downloadImage world (fuel + 1) url = some false) ∧
    (∀ (world : List Char → FetchEvent) (fuel : Nat) (url : List Char)
      (s : Nat) (loc : Option (List Char)) (w : Bool),
      world url = FetchEvent.response s loc w →
      isRedirectStatus s = false → s ≠ 200 →
      downloadImage world (fuel + 1) url = some false) ∧
    (∀ (world : List Char → FetchEvent) (fuel : Nat) (url : List Char)
      (s : Nat) (w : Bool),
      world url = FetchEvent.response s none w →
      isRedirectStatus s = true →
      downloadImage world (fuel + 1) url = some false) ∧
    (∀ (world : List Char → FetchEvent) (fuel : Nat) (url : List Char)
      (loc : Option (List Char)),
      world url = FetchEvent.response 200 loc false →
      downloadImage world (fuel + 1) url = some false) ∧
    (∀ (world : List Char → FetchEvent) (fuel : Nat) (url : List Char)
      (loc : Option (List Char)),
      world url = FetchEvent.response 200 loc true →
      downloadImage world (fuel + 1) url = some true) ∧
    (∀ (world : List Char → FetchEvent) (fuel : Nat) (url : List Char),
      downloadImage world fuel url = some true →
      ∃ (u : List Char) (loc : Option (List Char)),
        world u = FetchEvent.response 200 loc true) := by
  refine ⟨?_, ?_, ?_, ?_, ?_, ?_, ?_⟩
  · intro world fuel url h
    simp [downloadImage, h]
  · intro world fuel url h
    simp [downloadImage, h]
  · intro world fuel url s loc w h hs h200
    simp [downloadImage, h, hs, h200]
  · intro world fuel url s w h hs
    simp [downloadImage, h, hs]
  · intro world fuel url loc h
    have : isRedirectStatus 200 = false := by decide
    simp [downloadImage, h, this]
  · intro world fuel url loc h
    have : isRedirectStatus 200 = false := by decide
    simp [downloadImage, h, this]
  · intro world fuel
    induction fuel with
    | zero => intro url h; simp [downloadImage] at h
    | succ n ih =>
      intro url h
      rw [downloadImage] at h
      cases hw : world url with
      | connError => rw [hw] at h; simp at h
      | timeout => rw [hw] at h; simp at h
      | response s loc w =>
        rw [hw] at h
        dsimp only at h
        by_cases hs : isRedirectStatus s
        · cases loc with
          | some redirectUrl =>
            rw [if_pos hs] at h
            exact ih (resolveLocation redirectUrl url) h
          | none => rw [if_pos hs] at h; simp at h
        · rw [if_neg (by simp [hs])] at h
          by_cases h200 : s = 200
          · subst h200
            simp at h
            exact ⟨url, loc, by rw [hw, h]⟩
          · simp [h200] at h

theorem c3_download_never_raises_witness :
    downloadImage (fun _ => FetchEvent.connError) 1 ("http://a/i.png".toList) =
      some false ∧
    downloadImage (fun _ => FetchEvent.response 200 none true) 1
      ("http://a/i.png".toList) = some true :=
  ⟨c3_download_never_raises.1 _ 0 _ rfl,
   c3_download_never_raises.2.2.2.2.2.1 _ 0 _ none rfl⟩

theorem isRedirectStatus_ne_200 (s : Nat) (h : isRedirectStatus s = true) :
    s ≠ 200 := by
  unfold isRedirectStatus at h
  simp only [Bool.or_eq_true, decide_eq_true_eq] at h
  omega

/-- A redirect chain of length `n`: the URL with `k` trailing `x`
characters redirects (302) to the one with `k + 1` for `k < n`, and the
URL with `n` of them answers 200 with a successful body write. -/
def chainUrl (k : Nat) : List Char :=
  "http://h/".toList ++ List.replicate k 'x'

/-- The world holding the redirect chain of length `n`. -/
def chainWorld (n : Nat) (u : List Char) : FetchEvent :=
  if List.isPrefixOf "http://h/".toList u then
    if (u.drop 9).all (fun c => c = 'x') then
      if (u.drop 9).length < n then
        FetchEvent.response 302 (some (chainUrl ((u.drop 9).length + 1))) true
      else if (u.drop 9).length = n then FetchEvent.response 200 none true
      else FetchEvent.connError
    else FetchEvent.connError
  else FetchEvent.connError

theorem chainWorld_chainUrl (n k : Nat) :
    chainWorld n (chainUrl k) =
      if k < n then FetchEvent.response 302 (some (chainUrl (k + 1))) true
      else if k = n then FetchEvent.response 200 none true
      else FetchEvent.connError := by
  have hlen9 : ("http://h/".toList).length = 9 := by decide
  have hdrop : (("http://h/".toList ++ List.replicate k 'x').drop 9) =
      List.replicate k 'x' := by
    rw [← hlen9, List.drop_left]
  have hpre : List.isPrefixOf "http://h/".toList
      ("http://h/".toList ++ List.replicate k 'x') = true := by
    rw [List.isPrefixOf_iff_prefix]
    exact List.prefix_append _ _
  have hall : (List.replicate k 'x').all (fun c => c = 'x') = true := by
    rw [List.all_eq_true]
    intro c hc
    simp [List.eq_of_mem_replicate hc]
  unfold chainWorld chainUrl
  rw [hpre, if_pos rfl, hdrop, hall, if_pos rfl, List.length_replicate]

theorem chainUrl_starts_http (k : Nat) :
    List.isPrefixOf "http".toList (chainUrl k) = true := by
  rw [List.isPrefixOf_iff_prefix]
  have h1 : "http://h/".toList = "http".toList ++ "://h/".toList := by decide
  unfold chainUrl
  rw [h1, List.append_assoc]
  exact List.prefix_append _ _

theorem chain_download (n : Nat) :
    ∀ (d k : Nat), k + d = n →
      downloadImage (chainWorld n) (d + 1) (chainUrl k) = some true := by
  intro d
  induction d with
  | zero =>
    intro k hk
    have hk' : k = n := by omega
    subst hk'
    rw [downloadImage, chainWorld_chainUrl]
    rw [if_neg (by omega), if_pos rfl]
    dsimp only
    rw [if_neg (by decide : ¬isRedirectStatus 200 = true)]
    simp
  | succ d ih =>
    intro k hk
    have hklt : k < n := by omega
    rw [downloadImage, chainWorld_chainUrl, if_pos hklt]
    dsimp only
    rw [if_pos (by decide : isRedirectStatus 302 = true)]
    have hres : resolveLocation (chainUrl (k + 1)) (chainUrl k) =
        chainUrl (k + 1) := by
      unfold resolveLocation
      rw [if_pos (chainUrl_starts_http (k + 1))]
    rw [hres]
    exact ih (k + 1) (by omega)

/-- **C7**: on a 301/302/307/308 response with a `Location` header the
fetcher re-fetches the resolved target; the call succeeds exactly when the
terminal response of the redirect chain is a 200 whose body is written
successfully; and redirect chains of every length are followed (no depth
bound). -/
theorem c7_redirect_following :
    (∀ (world : List Char → FetchEvent) (fuel : Nat) (url : List Char)
      (s : Nat) (loc : List Char) (w : Bool),
      world url = FetchEvent.response s (some loc) w →
      isRedirectStatus s = true →
      downloadImage world (fuel + 1) url =
        downloadImage world fuel (resolveLocation loc url)) ∧
    (∀ (world : List Char → FetchEvent) (fuel : Nat) (url : List Char)
      (b : Bool), downloadImage world fuel url = some b →
      (b = true ↔ ∃ t : List Char, terminalUrl world fuel url = some t ∧
        ∃ loc : Option (List Char),
          world t = FetchEvent.response 200 loc true)) ∧
    (∀ n : Nat,
      downloadImage (chainWorld n) (n + 1) (chainUrl 0) = some true) := by
  refine ⟨?_, ?_, ?_⟩
  · intro world fuel url s loc w h hs
    simp [downloadImage, h, hs]
  · intro world fuel
    induction fuel with
    | zero => intro url b h; simp [downloadImage] at h
    | succ n ih =>
      intro url b h
      rw [downloadImage] at h
      cases hw : world url with
      | connError =>
        rw [hw] at h
        dsimp only at h
        have hb : b = false := (Option.some.inj h).symm
        subst hb
        constructor
        · intro hc; simp at hc
        · rintro ⟨t, ht, loc2, hresp⟩
          rw [terminalUrl, hw] at ht
          dsimp only at ht
          have hteq := Option.some.inj ht
          subst hteq
          rw [hw] at hresp
          simp at hresp
      | timeout =>
        rw [hw] at h
        dsimp only at h
        have hb : b = false := (Option.some.inj h).symm
        subst hb
        constructor
        · intro hc; simp at hc
        · rintro ⟨t, ht, loc2, hresp⟩
          rw [terminalUrl, hw] at ht
          dsimp only at ht
          have hteq := Option.some.inj ht
          subst hteq
          rw [hw] at hresp
          simp at hresp
      | response s loc w =>
        rw [hw] at h
        dsimp only at h
        by_cases hs : isRedirectStatus s
        · cases loc with
          | some redirectUrl =>
            rw [if_pos hs] at h
            have hterm : terminalUrl world (n + 1) url =
                terminalUrl world n (resolveLocation redirectUrl url) := by
              rw [terminalUrl, hw]
              dsimp only
              rw [if_pos hs]
            rw [hterm]
            exact ih (resolveLocation redirectUrl url) b h
          | none =>
            rw [if_pos hs] at h
            have hb : b = false := (Option.some.inj h).symm
            subst hb
            constructor
            · intro hc; simp at hc
            · rintro ⟨t, ht, loc2, hresp⟩
              rw [terminalUrl, hw] at ht
              dsimp only at ht
              have hteq := Option.some.inj ht
              subst hteq
              rw [hw] at hresp
              rw [FetchEvent.response.injEq] at hresp
              exact absurd hresp.1 (isRedirectStatus_ne_200 s hs)
        · rw [if_neg hs] at h
          have hterm : terminalUrl world (n + 1) url = some url := by
            rw [terminalUrl, hw]
            cases loc with
            | some l2 => dsimp only; rw [if_neg hs]
            | none => dsimp only
          by_cases h200 : s = 200
          · subst h200
            rw [if_neg (by simp)] at h
            have hb : b = w := (Option.some.inj h).symm
            subst hb
            rw [hterm]
            constructor
            · intro hbtrue
              exact ⟨url, rfl, loc, by rw [hw, hbtrue]⟩
            · rintro ⟨t, ht, loc2, hresp⟩
              have hteq := Option.some.inj ht
              subst hteq
              rw [hw] at hresp
              rw [FetchEvent.response.injEq] at hresp
              exact hresp.2.2
          · rw [if_pos h200] at h
            have hb : b = false := (Option.some.inj h).symm
            subst hb
            rw [hterm]
            constructor
            · intro hc; simp at hc
            · rintro ⟨t, ht, loc2, hresp⟩
              have hteq := Option.some.inj ht
              subst hteq
              rw [hw] at hresp
              rw [FetchEvent.response.injEq] at hresp
              exact absurd hresp.1 h200
  · intro n
    exact chain_download n n 0 (by omega)

theorem c7_redirect_following_witness :
    downloadImage
      (fun u => if u = "http://a/s".toList then
        FetchEvent.response 302 (some ("http://b/t".toList)) true
      else FetchEvent.response 200 none true) 2 ("http://a/s".toList) =
    downloadImage
      (fun u => if u = "http://a/s".toList then
        FetchEvent.response 302 (some ("http://b/t".toList)) true
      else FetchEvent.response 200 none true) 1
      (resolveLocation ("http://b/t".toList) ("http://a/s".toList)) :=
  c7_redirect_following.1 _ 1 _ 302 _ true (by decide) (by decide)

/-- One document's `downloadExternalImages(urls, slug)` against a download
oracle (whether `downloadImage` resolves `true` for a URL — deterministic
within one run) and a local-filename generator (`generateLocalFilename`,
whose md5-hashing internals the cache logic never inspects, so it is a
parameter here).  Returns the per-document URL → local-filename map, the
updated process-lifetime `downloadedImages` cache, and the URLs for which
a download was actually attempted (cache misses).  Directory creation and
file writes are not modelled. -/
def downloadExternalImages (oracle : List Char → Bool)
    (nameOf : List Char → List Char) :
    List (List Char) → List (List Char × List Char) →
      (List (List Char × List Char)) × (List (List Char × List Char)) ×
        List (List Char)
  | [], cache => ([], cache, [])
  | u :: rest, cache =>
    match lookupAssoc cache u with
    | some f =>
      let r := downloadExternalImages oracle nameOf rest cache
      ((u, f) :: r.1, r.2.1, r.2.2)
    | none =>
      if oracle u then
        let r := downloadExternalImages oracle nameOf rest
          ((u, nameOf u) :: cache)
        ((u, nameOf u) :: r.1, r.2.1, u :: r.2.2)
      else
        let r := downloadExternalImages oracle nameOf rest cache
        (r.1, r.2.1, u :: r.2.2)

/-- The run-level fold of `downloadExternalImages` over the documents'
URL lists, threading the process-lifetime cache: returns the per-document
(map, attempts) pairs and the final cache. -/
def runDownloadDocs (oracle : List Char → Bool)
    (nameOf : List Char → List Char) :
    List (List (List Char)) → List (List Char × List Char) →
      List ((List (List Char × List Char)) × List (List Char)) ×
        List (List Char × List Char)
  | [], cache => ([], cache)
  | d :: ds, cache =>
    let r := downloadExternalImages oracle nameOf d cache
    let rest := runDownloadDocs oracle nameOf ds r.2.1
    ((r.1, r.2.2) :: rest.1, rest.2)

theorem dlExt_cache_some (oracle : List Char → Bool)
    (nameOf : List Char → List Char) :
    ∀ (urls : List (List Char)) (c : List (List Char × List Char))
      (u f : List Char),
      lookupAssoc (downloadExternalImages oracle nameOf urls c).2.1 u = some f ↔
        (lookupAssoc c u = some f ∨
          (lookupAssoc c u = none ∧ u ∈ urls ∧ oracle u = true ∧
            f = nameOf u)) := by
  intro urls
  induction urls with
  | nil => intro c u f; simp [downloadExternalImages]
  | cons v rest ih =>
    intro c u f
    cases hv : lookupAssoc c v with
    | some fv =>
      rw [downloadExternalImages, hv]
      dsimp only
      rw [ih c u f]
      constructor
      · rintro (h1 | ⟨h1, h2, h3, h4⟩)
        · exact Or.inl h1
        · exact Or.inr ⟨h1, by simp [h2], h3, h4⟩
      · rintro (h1 | ⟨h1, h2, h3, h4⟩)
        · exact Or.inl h1
        · rcases List.mem_cons.mp h2 with h5 | h5
          · subst h5; rw [hv] at h1; exact absurd h1 (by simp)
          · exact Or.inr ⟨h1, h5, h3, h4⟩
    | none =>
      rw [downloadExternalImages, hv]
      dsimp only
      by_cases ho : oracle v
      · rw [if_pos ho]
        dsimp only
        rw [ih ((v, nameOf v) :: c) u f]
        by_cases huv : v = u
        · subst huv
          rw [hv]
          simp [lookupAssoc, ho]
          exact eq_comm
        · have hl : lookupAssoc ((v, nameOf v) :: c) u = lookupAssoc c u := by
            simp [lookupAssoc, huv]
          rw [hl]
          constructor
          · rintro (h1 | ⟨h1, h2, h3, h4⟩)
            · exact Or.inl h1
            · exact Or.inr ⟨h1, by simp [h2], h3, h4⟩
          · rintro (h1 | ⟨h1, h2, h3, h4⟩)
            · exact Or.inl h1
            · rcases List.mem_cons.mp h2 with h5 | h5
              · exact absurd h5.symm huv
              · exact Or.inr ⟨h1, h5, h3, h4⟩
      · rw [if_neg ho]
        dsimp only
        rw [ih c u f]
        constructor
        · rintro (h1 | ⟨h1, h2, h3, h4⟩)
          · exact Or.inl h1
          · exact Or.inr ⟨h1, by simp [h2], h3, h4⟩
        · rintro (h1 | ⟨h1, h2, h3, h4⟩)
          · exact Or.inl h1
          · rcases List.mem_cons.mp h2 with h5 | h5
            · subst h5; exact absurd h3 (by simp [ho])
            · exact Or.inr ⟨h1, h5, h3, h4⟩

theorem dlExt_cache_none (oracle : List Char → Bool)
    (nameOf : List Char → List Char) :
    ∀ (urls : List (List Char)) (c : List (List Char × List Char))
      (u : List Char),
      lookupAssoc (downloadExternalImages oracle nameOf urls c).2.1 u = none ↔
        (lookupAssoc c u = none ∧ ¬(u ∈ urls ∧ oracle u = true)) := by
  intro urls
  induction urls with
  | nil => intro c u; simp [downloadExternalImages]
  | cons v rest ih =>
    intro c u
    cases hv : lookupAssoc c v with
    | some fv =>
      rw [downloadExternalImages, hv]
      dsimp only
      rw [ih c u]
      constructor
      · rintro ⟨h1, h2⟩
        refine ⟨h1, ?_⟩
        rintro ⟨hm, ho⟩
        rcases List.mem_cons.mp hm with h5 | h5
        · subst h5; rw [hv] at h1; exact absurd h1 (by simp)
        · exact h2 ⟨h5, ho⟩
      · rintro ⟨h1, h2⟩
        refine ⟨h1, ?_⟩
        rintro ⟨hm, ho⟩
        exact h2 ⟨by simp [hm], ho⟩
    | none =>
      rw [downloadExternalImages, hv]
      dsimp only
      by_cases ho : oracle v
      · rw [if_pos ho]
        dsimp only
        rw [ih ((v, nameOf v) :: c) u]
        by_cases huv : v = u
        · subst huv
          rw [hv]
          simp [lookupAssoc, ho]
        · have hl : lookupAssoc ((v, nameOf v) :: c) u = lookupAssoc c u := by
            simp [lookupAssoc, huv]
          rw [hl]
          constructor
          · rintro ⟨h1, h2⟩
            refine ⟨h1, ?_⟩
            rintro ⟨hm, ho2⟩
            rcases List.mem_cons.mp hm with h5 | h5
            · exact absurd h5.symm huv
            · exact h2 ⟨h5, ho2⟩
          · rintro ⟨h1, h2⟩
            exact ⟨h1, fun ⟨hm, ho2⟩ => h2 ⟨by simp [hm], ho2⟩⟩
      · rw [if_neg ho]
        dsimp only
        rw [ih c u]
        constructor
        · rintro ⟨h1, h2⟩
          refine ⟨h1, ?_⟩
          rintro ⟨hm, ho2⟩
          rcases List.mem_cons.mp hm with h5 | h5
          · subst h5; exact absurd ho2 (by simp [ho])
          · exact h2 ⟨h5, ho2⟩
        · rintro ⟨h1, h2⟩
          exact ⟨h1, fun ⟨hm, ho2⟩ => h2 ⟨by simp [hm], ho2⟩⟩

theorem dlExt_map_some (oracle : List Char → Bool)
    (nameOf : List Char → List Char) :
    ∀ (urls : List (List Char)) (c : List (List Char × List Char))
      (u f : List Char),
      lookupAssoc (downloadExternalImages oracle nameOf urls c).1 u = some f ↔
        (u ∈ urls ∧ (lookupAssoc c u = some f ∨
          (lookupAssoc c u = none ∧ oracle u = true ∧ f = nameOf u))) := by
  intro urls
  induction urls with
  | nil => intro c u f; simp [downloadExternalImages, lookupAssoc]
  | cons v rest ih =>
    intro c u f
    cases hv : lookupAssoc c v with
    | some fv =>
      rw [downloadExternalImages, hv]
      dsimp only
      by_cases huv : v = u
      · subst huv
        rw [show lookupAssoc ((v, fv) :: _) v = some fv by simp [lookupAssoc]]
        rw [hv]
        simp
      · rw [show lookupAssoc ((v, fv) ::
          (downloadExternalImages oracle nameOf rest c).1) u =
            lookupAssoc (downloadExternalImages oracle nameOf rest c).1 u by
          simp [lookupAssoc, huv]]
        rw [ih c u f]
        constructor
        · rintro ⟨h1, h2⟩; exact ⟨by simp [h1], h2⟩
        · rintro ⟨h1, h2⟩
          rcases List.mem_cons.mp h1 with h5 | h5
          · exact absurd h5.symm huv
          · exact ⟨h5, h2⟩
    | none =>
      rw [downloadExternalImages, hv]
      dsimp only
      by_cases ho : oracle v
      · rw [if_pos ho]
        dsimp only
        by_cases huv : v = u
        · subst huv
          rw [show lookupAssoc ((v, nameOf v) :: _) v = some (nameOf v) by
            simp [lookupAssoc]]
          rw [hv]
          simp [ho]
          exact eq_comm
        · rw [show lookupAssoc ((v, nameOf v) ::
            (downloadExternalImages oracle nameOf rest
              ((v, nameOf v) :: c)).1) u =
              lookupAssoc (downloadExternalImages oracle nameOf rest
                ((v, nameOf v) :: c)).1 u by
            simp [lookupAssoc, huv]]
          rw [ih ((v, nameOf v) :: c) u f]
          have hl : lookupAssoc ((v, nameOf v) :: c) u = lookupAssoc c u := by
            simp [lookupAssoc, huv]
          rw [hl]
          constructor
          · rintro ⟨h1, h2⟩; exact ⟨by simp [h1], h2⟩
          · rintro ⟨h1, h2⟩
            rcases List.mem_cons.mp h1 with h5 | h5
            · exact absurd h5.symm huv
            · exact ⟨h5, h2⟩
      · rw [if_neg ho]
        dsimp only
        rw [ih c u f]
        by_cases huv : v = u
        · subst huv
          rw [hv]
          constructor
          · rintro ⟨h1, h2⟩; exact ⟨by simp [h1], h2⟩
          · rintro ⟨h1, h2⟩
            rcases h2 with h2 | ⟨h2, h3, h4⟩
            · exact absurd h2 (by simp)
            · exact absurd h3 (by simp [ho])
        · constructor
          · rintro ⟨h1, h2⟩; exact ⟨by simp [h1], h2⟩
          · rintro ⟨h1, h2⟩
            rcases List.mem_cons.mp h1 with h5 | h5
            · exact absurd h5.symm huv
            · exact ⟨h5, h2⟩

theorem dlExt_attempts (oracle : List Char → Bool)
    (nameOf : List Char → List Char) :
    ∀ (urls : List (List Char)) (c : List (List Char × List Char))
      (u : List Char),
      u ∈ (downloadExternalImages oracle nameOf urls c).2.2 ↔
        (u ∈ urls ∧ lookupAssoc c u = none) := by
  intro urls
  induction urls with
  | nil => intro c u; simp [downloadExternalImages]
  | cons v rest ih =>
    intro c u
    cases hv : lookupAssoc c v with
    | some fv =>
      rw [downloadExternalImages, hv]
      dsimp only
      rw [ih c u]
      constructor
      · rintro ⟨h1, h2⟩; exact ⟨by simp [h1], h2⟩
      · rintro ⟨h1, h2⟩
        rcases List.mem_cons.mp h1 with h5 | h5
        · subst h5; rw [hv] at h2; exact absurd h2 (by simp)
        · exact ⟨h5, h2⟩
    | none =>
      rw [downloadExternalImages, hv]
      dsimp only
      by_cases ho : oracle v
      · rw [if_pos ho]
        dsimp only
        by_cases huv : v = u
        · subst huv
          rw [hv]
          simp
        · have hl : lookupAssoc ((v, nameOf v) :: c) u = lookupAssoc c u := by
            simp [lookupAssoc, huv]
          constructor
          · intro hmem
            rcases List.mem_cons.mp hmem with h5 | h5
            · exact absurd h5.symm huv
            · obtain ⟨h6, h7⟩ := (ih ((v, nameOf v) :: c) u).mp h5
              rw [hl] at h7
              exact ⟨by simp [h6], h7⟩
          · rintro ⟨h1, h2⟩
            rcases List.mem_cons.mp h1 with h5 | h5
            · exact absurd h5.symm huv
            · exact List.mem_cons.mpr (Or.inr
                ((ih ((v, nameOf v) :: c) u).mpr ⟨h5, by rw [hl]; exact h2⟩))
      · rw [if_neg ho]
        dsimp only
        by_cases huv : v = u
        · subst huv
          rw [hv]
          simp
        · constructor
          · intro hmem
            rcases List.mem_cons.mp hmem with h5 | h5
            · exact absurd h5.symm huv
            · obtain ⟨h6, h7⟩ := (ih c u).mp h5
              exact ⟨by simp [h6], h7⟩
          · rintro ⟨h1, h2⟩
            rcases List.mem_cons.mp h1 with h5 | h5
            · exact absurd h5.symm huv
            · exact List.mem_cons.mpr (Or.inr ((ih c u).mpr ⟨h5, h2⟩))

/-- Well-formedness of the process-lifetime cache: every entry records a
successful download under the run's oracle and filename generator. -/
def cacheWF (oracle : List Char → Bool) (nameOf : List Char → List Char)
    (c : List (List Char × List Char)) : Prop :=
  ∀ u f, lookupAssoc c u = some f → oracle u = true ∧ f = nameOf u

theorem cacheWF_nil (oracle : List Char → Bool)
    (nameOf : List Char → List Char) : cacheWF oracle nameOf [] := by
  intro u f h
  simp [lookupAssoc] at h

theorem cacheWF_dlExt (oracle : List Char → Bool)
    (nameOf : List Char → List Char) (c : List (List Char × List Char))
    (h : cacheWF oracle nameOf c) (urls : List (List Char)) :
    cacheWF oracle nameOf
      (downloadExternalImages oracle nameOf urls c).2.1 := by
  intro u f hf
  rcases (dlExt_cache_some oracle nameOf urls c u f).mp hf with
    h1 | ⟨h1, h2, h3, h4⟩
  · exact h u f h1
  · exact ⟨h3, h4⟩

theorem dlExt_map_some_wf (oracle : List Char → Bool)
    (nameOf : List Char → List Char) (c : List (List Char × List Char))
    (h : cacheWF oracle nameOf c) (urls : List (List Char)) (u f : List Char) :
    lookupAssoc (downloadExternalImages oracle nameOf urls c).1 u = some f ↔
      (u ∈ urls ∧ oracle u = true ∧ f = nameOf u) := by
  rw [dlExt_map_some]
  constructor
  · rintro ⟨h1, h2 | ⟨h2, h3, h4⟩⟩
    · obtain ⟨h3, h4⟩ := h u f h2
      exact ⟨h1, h3, h4⟩
    · exact ⟨h1, h3, h4⟩
  · rintro ⟨h1, h2, h3⟩
    refine ⟨h1, ?_⟩
    cases hc : lookupAssoc c u with
    | some f2 =>
      left
      rw [h3, ← (h u f2 hc).2]
    | none => right; exact ⟨rfl, h2, h3⟩

theorem runDocs_cache_some (oracle : List Char → Bool)
    (nameOf : List Char → List Char) :
    ∀ (docs : List (List (List Char))) (c : List (List Char × List Char))
      (u f : List Char),
      lookupAssoc (runDownloadDocs oracle nameOf docs c).2 u = some f ↔
        (lookupAssoc c u = some f ∨
          (lookupAssoc c u = none ∧ u ∈ docs.flatten ∧ oracle u = true ∧
            f = nameOf u)) := by
  intro docs
  induction docs with
  | nil => intro c u f; simp [runDownloadDocs]
  | cons d ds ih =>
    intro c u f
    rw [runDownloadDocs]
    dsimp only
    rw [ih (downloadExternalImages oracle nameOf d c).2.1 u f,
      dlExt_cache_some, dlExt_cache_none]
    constructor
    · rintro ((h1 | ⟨h1, h2, h3, h4⟩) | ⟨⟨h1, h2⟩, h3, h4, h5⟩)
      · exact Or.inl h1
      · exact Or.inr ⟨h1, by simp [h2], h3, h4⟩
      · exact Or.inr ⟨h1, by simp [h3], h4, h5⟩
    · rintro (h1 | ⟨h1, h2, h3, h4⟩)
      · exact Or.inl (Or.inl h1)
      · rw [List.flatten_cons, List.mem_append] at h2
        by_cases hd : u ∈ d
        · exact Or.inl (Or.inr ⟨h1, hd, h3, h4⟩)
        · rcases h2 with h2 | h2
          · exact absurd h2 hd
          · exact Or.inr ⟨⟨h1, fun hx => hd hx.1⟩, h2, h3, h4⟩

theorem runDocs_get (oracle : List Char → Bool)
    (nameOf : List Char → List Char) :
    ∀ (docs : List (List (List Char))) (c : List (List Char × List Char)),
      cacheWF oracle nameOf c →
      ∀ (i : Nat) (mp : (List (List Char × List Char)) × List (List Char))
        (d : List (List Char)),
        docs[i]? = some d →
        (runDownloadDocs oracle nameOf docs c).1[i]? = some mp →
        ((∀ u f, lookupAssoc mp.1 u = some f ↔
            (u ∈ d ∧ oracle u = true ∧ f = nameOf u)) ∧
         (∀ u, oracle u = false → u ∈ d → u ∈ mp.2)) := by
  intro docs
  induction docs with
  | nil => intro c hWF i mp d hd hmp; simp at hd
  | cons dd ds ih =>
    intro c hWF i mp d hd hmp
    cases i with
    | zero =>
      have hdd : d = dd := by simpa using hd.symm
      subst hdd
      rw [runDownloadDocs] at hmp
      dsimp only at hmp
      have hmp2 : mp = ((downloadExternalImages oracle nameOf d c).1,
          (downloadExternalImages oracle nameOf d c).2.2) := by
        simpa using hmp.symm
      subst hmp2
      constructor
      · intro u f
        exact dlExt_map_some_wf oracle nameOf c hWF d u f
      · intro u hou hum
        refine (dlExt_attempts oracle nameOf d c u).mpr ⟨hum, ?_⟩
        cases hc : lookupAssoc c u with
        | some f2 => exact absurd (hWF u f2 hc).1 (by simp [hou])
        | none => rfl
    | succ j =>
      have hd' : ds[j]? = some d := by simpa using hd
      rw [runDownloadDocs] at hmp
      dsimp only at hmp
      have hmp' : (runDownloadDocs oracle nameOf ds
          (downloadExternalImages oracle nameOf dd c).2.1).1[j]? = some mp := by
        simpa using hmp
      exact ih (downloadExternalImages oracle nameOf dd c).2.1
        (cacheWF_dlExt oracle nameOf c hWF dd) j mp d hd' hmp'

/-- **C9**: the process-lifetime `downloadedImages` cache and each
per-document URL → filename map contain an entry for a URL exactly when a
download of that URL succeeded (in this or an earlier document of the
run); a failed URL is recorded in neither map, the content transformer
falls back to the original external URL for it, and every document that
meets a previously-failed URL attempts the download again instead of
reusing the failure. -/
theorem c9_download_cache_invariant :
    (∀ (oracle : List Char → Bool) (nameOf : List Char → List Char)
       (docs : List (List (List Char))) (u f : List Char),
      lookupAssoc (runDownloadDocs oracle nameOf docs []).2 u = some f ↔
        (u ∈ docs.flatten ∧ oracle u = true ∧ f = nameOf u)) ∧
    (∀ (oracle : List Char → Bool) (nameOf : List Char → List Char)
       (docs : List (List (List Char))) (i : Nat)
       (mp : (List (List Char × List Char)) × List (List Char))
       (d : List (List Char)),
      docs[i]? = some d →
      (runDownloadDocs oracle nameOf docs []).1[i]? = some mp →
      ((∀ u f, lookupAssoc mp.1 u = some f ↔
          (u ∈ d ∧ oracle u = true ∧ f = nameOf u)) ∧
       (∀ u, oracle u = false → u ∈ d → u ∈ mp.2))) ∧
    transformContent ("![[https://x.io/pic-one.png]]".toList)
      ("post".toList) [] =
      "![pic one](https://x.io/pic-one.png)".toList := by
  refine ⟨?_, ?_, by decide⟩
  · intro oracle nameOf docs u f
    rw [runDocs_cache_some]
    simp [lookupAssoc]
  · intro oracle nameOf docs i mp d hd hmp
    exact runDocs_get oracle nameOf docs [] (cacheWF_nil oracle nameOf)
      i mp d hd hmp

theorem c9_download_cache_invariant_witness :
    "https://r.io/a.png".toList ∈
      ((([] : List (List Char × List Char)),
        ["https://r.io/a.png".toList]).2) :=
  (c9_download_cache_invariant.2.1 (fun _ => false)
    (fun _ => "f.png".toList)
    [["https://r.io/a.png".toList], ["https://r.io/a.png".toList]] 1
    ([], ["https://r.io/a.png".toList]) ["https://r.io/a.png".toList]
    (by decide) (by decide)).2 ("https://r.io/a.png".toList) rfl (by decide)

/-- Backtracking over the whitespace-run length for `^#\s+(.+)\n` at the
start of the file: `rest` is the input after `#`, the counter runs from
the maximal run length down to 1 (the regex engine's greedy preference).
Returns the captured group and the length of the whole match. -/
def h1TryK (rest : List Char) : Nat → Option (List Char × Nat)
  | 0 => none
  | k + 1 =>
    let after := rest.drop (k + 1)
    let line := after.takeWhile (fun c => c ≠ '\n')
    if line.isEmpty = false && (after.drop line.length).head? == some '\n' then
      some (line, 1 + (k + 1) + line.length + 1)
    else h1TryK rest k

/-- `fileContent.match(/^#\s+(.+)\n/)`: a top-level heading at the very
start, its text captured, the match requiring a newline after the heading
line. -/
def matchH1AtStart (s : List Char) : Option (List Char × Nat) :=
  match s with
  | '#' :: rest => h1TryK rest (rest.takeWhile isJsSpace).length
  | _ => none

/-- Backtracking inside the whitespace run for `^#\s+(.+)$` when the run
reaches the end of the input: the group then starts at a non-newline
whitespace character of the run itself. -/
def h1LineBacktrack (w : List Char) : Nat → Option (List Char)
  | 0 => none
  | k + 1 =>
    match (w.drop (k + 1)).head? with
    | some c =>
      if c ≠ '\n' then some ((w.drop (k + 1)).takeWhile (fun d => d ≠ '\n'))
      else h1LineBacktrack w k
    | none => h1LineBacktrack w k

/-- One anchor attempt of `/^#\s+(.+)$/m`: `#`, at least one whitespace
character, then a nonempty run of non-newline characters (the `$` always
matches at the run's end).  Returns the captured group. -/
def matchH1Line (s : List Char) : Option (List Char) :=
  match s with
  | '#' :: rest =>
    let w := rest.takeWhile isJsSpace
    if w.isEmpty then none
    else
      match rest.drop w.length with
      | c :: cs => some ((c :: cs).takeWhile (fun d => d ≠ '\n'))
      | [] => h1LineBacktrack w (w.length - 1)
  | _ => none

/-- `content.match(/^#\s+(.+)$/m)`: the first line-anchored heading match
anywhere in the text (fuelled scan over the line starts). -/
def findH1MultilineF : Nat → List Char → Option (List Char)
  | 0, _ => none
  | fuel + 1, s =>
    match matchH1Line s with
    | some g => some g
    | none =>
      match s.dropWhile (fun c => c ≠ '\n') with
      | _ :: rest => findH1MultilineF fuel rest
      | [] => none

/-- The first multiline H1 match of a text. -/
def findH1Multiline (s : List Char) : Option (List Char) :=
  findH1MultilineF (s.length + 1) s

/-- Backtracking for the removal regex `^#\s+.+\n+` (start-anchored, not
multiline): like `h1TryK` but consuming the maximal run of newlines after
the heading line.  Returns the length to remove. -/
def h1RemoveTryK (rest : List Char) : Nat → Option Nat
  | 0 => none
  | k + 1 =>
    let after := rest.drop (k + 1)
    let line := after.takeWhile (fun c => c ≠ '\n')
    let nls := (after.drop line.length).takeWhile (fun c => c = '\n')
    if line.isEmpty = false && nls.isEmpty = false then
      some (1 + (k + 1) + line.length + nls.length)
    else h1RemoveTryK rest k

/-- `content.replace(/^#\s+.+\n+/, "")`: remove a heading line (and the
following blank lines) only when it sits at the very start of the text. -/
def stripLeadingH1Block (s : List Char) : List Char :=
  match s with
  | '#' :: rest =>
    match h1RemoveTryK rest (rest.takeWhile isJsSpace).length with
    | some len => s.drop len
    | none => s
  | _ => s

/-- Strip surrounding double quotes from a scalar value. -/
def unquote (v : List Char) : List Char :=
  match v with
  | '"' :: rest => if rest.getLast? == some '"' then rest.dropLast else v
  | _ => v

/-- One `key: value` line of a metadata block. -/
def parseKVLine (line : List Char) : Option (List Char × List Char) :=
  let key := line.takeWhile (fun c => c ≠ ':')
  if key.length = line.length || key.isEmpty then none
  else some (jsTrim key, unquote (jsTrim (line.drop (key.length + 1))))

/-- Modelled from the gray-matter library (an external dependency): a
document whose first line is the `---` delimiter has the block up to the
closing `---` line parsed as `key: value` pairs (the YAML subset the vault
files use; nested structures are not modelled); any other document — and
an unclosed block — yields empty data and the text unchanged. -/
def grayMatter (s : List Char) :
    List (List Char × List Char) × List Char :=
  match splitOnChar '\n' s with
  | first :: rest =>
    if first = "---".toList then
      let block := rest.takeWhile (fun l => l ≠ "---".toList)
      if block.length < rest.length then
        (block.filterMap parseKVLine,
         joinChar '\n' (rest.drop (block.length + 1)))
      else ([], s)
    else ([], s)
  | [] => ([], s)

/-- The leading-H1 capture step of `parseObsidianFile`: (provisional
title, remaining content). -/
def step1Of (fileContent : List Char) : List Char × List Char :=
  match matchH1AtStart fileContent with
  | some (g, len) => (jsTrim g, fileContent.drop len)
  | none => ([], fileContent)

/-- `parseObsidianFile(fileContent)`: leading-H1 capture, leading-space
trim, gray-matter parse, in-body H1 title search (removal start-anchored)
when no title was captured, and the final start-anchored H1 removal.
Returns (title, frontmatter data, body). -/
def parseObsidianFile (fileContent : List Char) :
    List Char × List (List Char × List Char) × List Char :=
  let s1 := step1Of fileContent
  let gm := grayMatter (jsTrimStart s1.2)
  let s3 :=
    if s1.1.isEmpty then
      match findH1Multiline gm.2 with
      | some g => (jsTrim g, stripLeadingH1Block gm.2)
      | none => (s1.1, gm.2)
    else (s1.1, gm.2)
  (s3.1, gm.1, stripLeadingH1Block s3.2)

/-- The recognized Obsidian frontmatter fields (dates are modelled by
their ISO text — both source date branches reduce to the text before
`T`).  Field order: title, description, pubDate, updatedDate, heroImage,
heroAlt, category, tags, featured, draft, slug, date, summary. -/
structure ObsidianFm where
  title : Option (List Char)
  description : Option (List Char)
  pubDate : Option (List Char)
  updatedDate : Option (List Char)
  heroImage : Option (List Char)
  heroAlt : Option (List Char)
  category : Option (List Char)
  tags : Option (List (List Char))
  featured : Option Bool
  draft : Option Bool
  slug : Option (List Char)
  date : Option (List Char)
  summary : Option (List Char)

/-- The all-absent frontmatter record. -/
def emptyFm : ObsidianFm :=
  ⟨none, none, none, none, none, none, none, none, none, none, none, none,
    none⟩

/-- JavaScript string truthiness: present and non-empty. -/
def strTruthy (o : Option (List Char)) : Bool :=
  match o with
  | some (_ :: _) => true
  | _ => false

/-- JavaScript `a || b` over optional strings. -/
def jsOrStr (a b : Option (List Char)) : Option (List Char) :=
  if strTruthy a then a else b

/-- An inline YAML list value `[a, b, c]`. -/
def parseTagList (v : List Char) : Option (List (List Char)) :=
  match v with
  | '[' :: rest =>
    if rest.getLast? == some ']' then
      some ((splitOnChar ',' rest.dropLast).map (fun t => unquote (jsTrim t)))
    else none
  | _ => none

/-- A YAML boolean scalar. -/
def parseBoolOpt (o : Option (List Char)) : Option Bool :=
  match o with
  | some v =>
    if v = "true".toList then some true
    else if v = "false".toList then some false
    else none
  | none => none

/-- The cast `data as ObsidianFrontmatter` over the parsed block. -/
def fmOfData (data : List (List Char × List Char)) : ObsidianFm :=
  ⟨lookupAssoc data ("title".toList),
   lookupAssoc data ("description".toList),
   lookupAssoc data ("pubDate".toList),
   lookupAssoc data ("updatedDate".toList),
   lookupAssoc data ("heroImage".toList),
   lookupAssoc data ("heroAlt".toList),
   lookupAssoc data ("category".toList),
   (lookupAssoc data ("tags".toList)).bind parseTagList,
   parseBoolOpt (lookupAssoc data ("featured".toList)),
   parseBoolOpt (lookupAssoc data ("draft".toList)),
   lookupAssoc data ("slug".toList),
   lookupAssoc data ("date".toList),
   lookupAssoc data ("summary".toList)⟩

/-- `ensureTags(tags)`: the default tag (`CONFIG.defaultTag = "Tech"`)
when none are provided. -/
def ensureTags (tags : Option (List (List Char))) : List (List Char) :=
  match tags with
  | some (t :: ts) => t :: ts
  | _ => ["Tech".toList]

/-- The `pubDate` computation: prefer `pubDate` over the legacy `date`
(falsy semantics — an empty string falls through), take the text before a
`T`, else the current date (`today`). -/
def computePubDate (pubDate date : Option (List Char)) (today : List Char) :
    List Char :=
  match jsOrStr pubDate date with
  | some (c :: cs) => (c :: cs).takeWhile (fun d => d ≠ 'T')
  | _ => today

/-- Hero image resolution: a present frontmatter `heroImage` that is
non-empty after trimming wins; otherwise the first in-body wikilink
image. -/
def resolveHero (fmHero contentHero : Option (List Char)) :
    Option (List Char) :=
  match fmHero with
  | some h =>
    if h.isEmpty = false && (jsTrim h).isEmpty = false then some h
    else contentHero
  | none => contentHero

/-- The emitted frontmatter record (`AstroFrontmatter`); `heroImage`
already carries the full `@assets` path. -/
structure AstroFm where
  title : List Char
  description : List Char
  pubDate : List Char
  heroImage : Option (List Char)
  heroAlt : List Char
  tags : List (List Char)
  featured : Bool
  draft : Bool

/-- `.replace(/"/g, '\\"')`. -/
def escapeQuotes : List Char → List Char
  | [] => []
  | c :: cs =>
    if c = '"' then '\\' :: '"' :: escapeQuotes cs else c :: escapeQuotes cs

/-- Modelled from `JSON.stringify` for one string (quote and backslash
escapes; control-character escapes are not modelled). -/
def jsonString : List Char → List Char
  | [] => []
  | c :: cs =>
    if c = '"' then '\\' :: '"' :: jsonString cs
    else if c = '\\' then '\\' :: '\\' :: jsonString cs
    else c :: jsonString cs

/-- `JSON.stringify(tags)`. -/
def jsonTagArray (tags : List (List Char)) : List Char :=
  '[' :: (joinChar ',' (tags.map (fun t => '"' :: (jsonString t ++ ['"'])))
    ++ [']'])

/-- Boolean interpolation of the template literal. -/
def boolText (b : Bool) : List Char :=
  if b then "true".toList else "false".toList

/-- The header lines of the emitted document, in the exact order of the
template literal of `processPost` — note there is no `category` line.
The final empty chunk is the blank line between the block and the body. -/
def mdxHeaderLines (astro : AstroFm) : List (List Char) :=
  ["---".toList,
   "title: \"".toList ++ escapeQuotes astro.title ++ "\"".toList,
   "description: \"".toList ++ escapeQuotes astro.description ++
     "\"".toList,
   "pubDate: ".toList ++ astro.pubDate] ++
  (match astro.heroImage with
   | some h => ["heroImage: \"".toList ++ h ++ "\"".toList]
   | none => []) ++
  ["heroAlt: \"".toList ++ escapeQuotes astro.heroAlt ++ "\"".toList,
   "tags: ".toList ++ jsonTagArray astro.tags,
   "featured: ".toList ++ boolText astro.featured,
   "draft: ".toList ++ boolText astro.draft,
   "---".toList,
   []]

/-- The emitted MDX text: each header line terminated by a newline, then
the transformed body (the source's template literal). -/
def buildMdx (astro : AstroFm) (body : List Char) : List Char :=
  (mdxHeaderLines astro).foldr (fun line acc => line ++ '\n' :: acc) body

/-- The keys of the metadata block of an emitted document: each line
between the opening and closing `---` lines, up to its first colon. -/
def keysOfDoc (doc : List Char) : List (List Char) :=
  (((splitOnChar '\n' doc).drop 1).takeWhile
    (fun l => l ≠ "---".toList)).map
    (fun l => l.takeWhile (fun c => c ≠ ':'))

/-- The observable outputs of one document run. -/
structure PostOutput where
  slug : List Char
  heroImage : Option (List Char)
  warnNoHero : Bool
  urlToLocal : List (List Char × List Char)
  cache : List (List Char × List Char)
  mdx : List Char

/-- The per-document computation of `processPost` after parsing, with
filesystem and console effects as data (`warnNoHero` is the "no hero
image" warning; image copies and directory creation are not modelled):
title resolution, slug, image extraction, external downloads, tag
defaulting, body transformation, date formatting, hero resolution and MDX
assembly. -/
def processPostCore (oracle : List Char → Bool)
    (nameOf : List Char → List Char) (cache : List (List Char × List Char))
    (filename : List Char) (fm : ObsidianFm)
    (extractedTitle rawContent today : List Char) : PostOutput :=
  let fallbackTitle := (stripMdExt filename).map
    (fun c => if c = '-' then ' ' else c)
  let title := (jsOrStr fm.title
    (jsOrStr (some extractedTitle) (some fallbackTitle))).getD fallbackTitle
  let slug := generateSlug filename fm.slug
  let images := extractImages rawContent
  let dl := downloadExternalImages oracle nameOf
    (extractExternalUrls rawContent) cache
  let tags := ensureTags fm.tags
  let transformed := transformContent rawContent slug dl.1
  let pubDate := computePubDate fm.pubDate fm.date today
  let hero := resolveHero fm.heroImage images.head?
  let description := (jsOrStr fm.description (jsOrStr fm.summary
    (some (title ++ " - a blog post by Victor Augusteo".toList)))).getD []
  let heroAlt :=
    if strTruthy fm.heroAlt then fm.heroAlt.getD []
    else match hero with
      | some h => stripDotExtension (dashUnderscoreToSpace h)
      | none => title
  let astro : AstroFm := ⟨title, description, pubDate,
    hero.map (fun h => "@assets/blog/".toList ++ slug ++ "/".toList ++ h),
    heroAlt, tags, fm.featured.getD false, fm.draft.getD false⟩
  ⟨slug, hero, hero.isNone, dl.1, dl.2.1, buildMdx astro transformed⟩

/-- `processPost` without its filesystem effects: parse, then the core
computation. -/
def processPostPure (oracle : List Char → Bool)
    (nameOf : List Char → List Char) (cache : List (List Char × List Char))
    (filename fileContent today : List Char) : PostOutput :=
  let parsed := parseObsidianFile fileContent
  processPostCore oracle nameOf cache filename (fmOfData parsed.2.1)
    parsed.1 parsed.2.2 today

/-- The body the claim describes for frontmatter-free documents: the
original text modified only by the heading-stripping rules (leading-H1
removal with title capture, the start-anchored removal when an in-body H1
supplies the title, the final start-anchored leading-H1 removal) — without
the leading-whitespace trim the implementation also performs. -/
def bodyHeadingRulesOnly (fileContent : List Char) : List Char :=
  let s1 := step1Of fileContent
  let s3 :=
    if s1.1.isEmpty then
      match findH1Multiline s1.2 with
      | some _ => stripLeadingH1Block s1.2
      | none => s1.2
    else s1.2
  stripLeadingH1Block s3

/-- The amended body for frontmatter-free documents: as
`bodyHeadingRulesOnly`, but with the leading whitespace trimmed after the
leading-H1 step, as the implementation does before probing for a metadata
block. -/
def bodyAmended (fileContent : List Char) : List Char :=
  let c1 := jsTrimStart (step1Of fileContent).2
  let s3 :=
    if (step1Of fileContent).1.isEmpty then
      match findH1Multiline c1 with
      | some _ => stripLeadingH1Block c1
      | none => c1
    else c1
  stripLeadingH1Block s3

/-- **C4 counterexample**: on the frontmatter-free document made of a
newline followed by `hello`, no heading-stripping rule applies, yet
parsing returns the body `hello`: the leading newline was removed by the
trim step, which the claim's list of permitted modifications does not
include. -/
theorem c4_counterexample :
    (parseObsidianFile ("\nhello".toList)).2.1 = [] ∧
    bodyHeadingRulesOnly ("\nhello".toList) = "\nhello".toList ∧
    (parseObsidianFile ("\nhello".toList)).2.2 = "hello".toList ∧
    (parseObsidianFile ("\nhello".toList)).2.2 ≠
      bodyHeadingRulesOnly ("\nhello".toList) :=
  ⟨by decide, by decide, by decide, by decide⟩

theorem grayMatter_no_delimiter (s : List Char)
    (h : ¬ List.isPrefixOf "---".toList s = true) : grayMatter s = ([], s) := by
  unfold grayMatter
  cases hs : splitOnChar '\n' s with
  | nil => rfl
  | cons first rest =>
    by_cases hf : first = "---".toList
    · exfalso
      apply h
      subst hf
      have hj := joinChar_splitOnChar '\n' s
      rw [hs] at hj
      rw [List.isPrefixOf_iff_prefix, ← hj]
      cases rest with
      | nil => simp [joinChar]
      | cons r rs =>
        show "---".toList <+: joinChar '\n' ("---".toList :: r :: rs)
        rw [show joinChar '\n' ("---".toList :: r :: rs) =
          "---".toList ++ '\n' :: joinChar '\n' (r :: rs) from rfl]
        exact List.prefix_append _ _
    · dsimp only
      rw [if_neg hf]

/-- **C4 (amended)**: for every document containing no metadata block,
parsing returns an empty frontmatter mapping and a body equal to the
original text modified only by leading-whitespace trimming (performed
after the leading-H1 step) together with the heading-stripping rules. -/
theorem c4_no_frontmatter_amended (text : List Char)
    (h : ¬ List.isPrefixOf "---".toList
      (jsTrimStart (step1Of text).2) = true) :
    (parseObsidianFile text).2.1 = [] ∧
    (parseObsidianFile text).2.2 = bodyAmended text := by
  have hg := grayMatter_no_delimiter _ h
  unfold parseObsidianFile bodyAmended
  simp only [hg]
  refine ⟨trivial, ?_⟩
  by_cases ht : (step1Of text).1.isEmpty
  · rw [if_pos ht, if_pos ht]
    cases hf : findH1Multiline (jsTrimStart (step1Of text).2) <;> rfl
  · rw [if_neg ht, if_neg ht]

theorem c4_no_frontmatter_amended_witness :
    ¬ List.isPrefixOf "---".toList
      (jsTrimStart (step1Of ("# T\n\nBody text".toList)).2) = true ∧
    ((parseObsidianFile ("# T\n\nBody text".toList)).2.1 = [] ∧
     (parseObsidianFile ("# T\n\nBody text".toList)).2.2 =
       bodyAmended ("# T\n\nBody text".toList)) :=
  ⟨by decide, c4_no_frontmatter_amended _ (by decide)⟩

theorem key_of_line (pre rest : List Char) (h : ∀ c ∈ pre, c ≠ ':') :
    (pre ++ ':' :: rest).takeWhile (fun c => c ≠ ':') = pre := by
  induction pre with
  | nil => simp [List.takeWhile_cons]
  | cons c cs ih =>
    have hc : c ≠ ':' := h c (by simp)
    have ih' := ih (fun d hd => h d (by simp [hd]))
    simp only [List.cons_append, List.takeWhile_cons, hc]
    simp [hc]
    simpa using ih'

theorem mdxKeys_aux (astro : AstroFm) :
    (("title: \"".toList ++ escapeQuotes astro.title ++
        "\"".toList).takeWhile (fun c => c ≠ ':') = "title".toList) ∧
    (("description: \"".toList ++ escapeQuotes astro.description ++
        "\"".toList).takeWhile (fun c => c ≠ ':') = "description".toList) ∧
    (("pubDate: ".toList ++ astro.pubDate).takeWhile
        (fun c => c ≠ ':') = "pubDate".toList) ∧
    (("heroAlt: \"".toList ++ escapeQuotes astro.heroAlt ++
        "\"".toList).takeWhile (fun c => c ≠ ':') = "heroAlt".toList) ∧
    (("tags: ".toList ++ jsonTagArray astro.tags).takeWhile
        (fun c => c ≠ ':') = "tags".toList) ∧
    (("featured: ".toList ++ boolText astro.featured).takeWhile
        (fun c => c ≠ ':') = "featured".toList) ∧
    (("draft: ".toList ++ boolText astro.draft).takeWhile
        (fun c => c ≠ ':') = "draft".toList) :=
  ⟨key_of_line ("title".toList) _ (by decide),
   key_of_line ("description".toList) _ (by decide),
   key_of_line ("pubDate".toList) _ (by decide),
   key_of_line ("heroAlt".toList) _ (by decide),
   key_of_line ("tags".toList) _ (by decide),
   key_of_line ("featured".toList) _ (by decide),
   key_of_line ("draft".toList) _ (by decide)⟩

/-- The keys of the emitted header lines when no hero image was
resolved: no `heroImage` entry. -/
theorem mdxKeys_none (astro : AstroFm) (hnone : astro.heroImage = none) :
    (mdxHeaderLines astro).map (fun l => l.takeWhile (fun c => c ≠ ':')) =
      ["---".toList, "title".toList, "description".toList,
       "pubDate".toList, "heroAlt".toList, "tags".toList,
       "featured".toList, "draft".toList, "---".toList, []] := by
  obtain ⟨k1, k2, k3, k4, k5, k6, k7⟩ := mdxKeys_aux astro
  unfold mdxHeaderLines
  rw [hnone]
  simp only [List.nil_append, List.append_nil, List.cons_append,
    List.map_cons, List.map_nil]
  rw [k1, k2, k3, k4, k5, k6, k7]
  decide

/-- The keys of the emitted header lines when a hero image was resolved:
a `heroImage` entry between `pubDate` and `heroAlt`. -/
theorem mdxKeys_some (astro : AstroFm) (h : List Char)
    (hsome : astro.heroImage = some h) :
    (mdxHeaderLines astro).map (fun l => l.takeWhile (fun c => c ≠ ':')) =
      ["---".toList, "title".toList, "description".toList,
       "pubDate".toList, "heroImage".toList, "heroAlt".toList,
       "tags".toList, "featured".toList, "draft".toList, "---".toList,
       []] := by
  obtain ⟨k1, k2, k3, k4, k5, k6, k7⟩ := mdxKeys_aux astro
  have k8 : ("heroImage: \"".toList ++ h ++ "\"".toList).takeWhile
      (fun c => c ≠ ':') = "heroImage".toList :=
    key_of_line ("heroImage".toList) _ (by decide)
  unfold mdxHeaderLines
  rw [hsome]
  simp only [List.nil_append, List.append_nil, List.cons_append,
    List.map_cons, List.map_nil]
  rw [k1, k2, k3, k4, k5, k6, k7, k8]
  decide


/-- **C8**: the hero image is the frontmatter `heroImage` whenever present
and non-empty after trimming; otherwise the first local in-body image; and
when both are absent a warning is recorded and the emitted metadata block
contains no `heroImage` line. -/
theorem c8_hero_resolution :
    (∀ (h : List Char) (c : Option (List Char)), jsTrim h ≠ [] →
      resolveHero (some h) c = some h) ∧
    (∀ (h : List Char) (c : Option (List Char)), jsTrim h = [] →
      resolveHero (some h) c = c) ∧
    (∀ c : Option (List Char), resolveHero none c = c) ∧
    (∀ (oracle : List Char → Bool) (nameOf : List Char → List Char)
       (cache : List (List Char × List Char)) (filename : List Char)
       (fm : ObsidianFm) (extractedTitle rawContent today : List Char),
      (processPostCore oracle nameOf cache filename fm extractedTitle
          rawContent today).heroImage =
        resolveHero fm.heroImage (extractImages rawContent).head? ∧
      ((processPostCore oracle nameOf cache filename fm extractedTitle
          rawContent today).heroImage = none →
        (processPostCore oracle nameOf cache filename fm extractedTitle
          rawContent today).warnNoHero = true)) ∧
    (∀ astro : AstroFm, astro.heroImage = none →
      (mdxHeaderLines astro).map
        (fun l => l.takeWhile (fun c => c ≠ ':')) =
        ["---".toList, "title".toList, "description".toList,
         "pubDate".toList, "heroAlt".toList, "tags".toList,
         "featured".toList, "draft".toList, "---".toList, []]) ∧
    ((processPostPure (fun _ => false) (fun _ => []) []
        ("post.md".toList) ("Body only, no images.".toList)
        ("2026-10-11".toList)).warnNoHero = true ∧
      "heroImage".toList ∉ keysOfDoc (processPostPure (fun _ => false)
        (fun _ => []) [] ("post.md".toList)
        ("Body only, no images.".toList) ("2026-10-11".toList)).mdx) ∧
    "heroImage".toList ∈ keysOfDoc (processPostPure (fun _ => false)
      (fun _ => []) [] ("post.md".toList)
      ("![[pic.jpg]] and text".toList) ("2026-10-11".toList)).mdx := by
  refine ⟨?_, ?_, ?_, ?_, ?_, ⟨by decide, by decide⟩, by decide⟩
  · intro h c ht
    have hne : h ≠ [] := by
      intro he; subst he; exact ht rfl
    cases h with
    | nil => exact absurd rfl hne
    | cons a as =>
      have : (jsTrim (a :: as)).isEmpty = false := by
        cases hj : jsTrim (a :: as) with
        | nil => exact absurd hj ht
        | cons x xs => rfl
      simp [resolveHero, this]
  · intro h c ht
    cases h with
    | nil => simp [resolveHero]
    | cons a as => simp [resolveHero, ht]
  · intro c; rfl
  · intro oracle nameOf cache filename fm extractedTitle rawContent today
    constructor
    · rfl
    · intro hnone
      rw [show (processPostCore oracle nameOf cache filename fm
          extractedTitle rawContent today).warnNoHero =
        (processPostCore oracle nameOf cache filename fm extractedTitle
          rawContent today).heroImage.isNone from rfl, hnone]
      rfl
  · exact mdxKeys_none

theorem c8_hero_resolution_witness :
    resolveHero (some ("cover.png".toList)) (some ("body.jpg".toList)) =
      some ("cover.png".toList) ∧
    (mdxHeaderLines (⟨"t".toList, "d".toList, "2026-01-01".toList, none,
        "alt".toList, [], false, false⟩ : AstroFm)).map
      (fun l => l.takeWhile (fun c => c ≠ ':')) =
      ["---".toList, "title".toList, "description".toList,
       "pubDate".toList, "heroAlt".toList, "tags".toList,
       "featured".toList, "draft".toList, "---".toList, []] :=
  ⟨c8_hero_resolution.1 ("cover.png".toList) (some ("body.jpg".toList))
      (by decide),
   c8_hero_resolution.2.2.2.2.1 _ rfl⟩

/-- The required fields of the downstream blog-collection schema
(`src/content/config.ts`): those declared with neither `.optional()` nor a
`.default(...)` — `category` is among them, constrained to the enumerated
set travels / tech / books / philosophy. -/
def blogSchemaRequiredKeys : List (List Char) :=
  ["title".toList, "description".toList, "pubDate".toList,
   "heroAlt".toList, "category".toList]

/-- **C1** (the schema is violated): the metadata block `processPost`
emits carries title, description, pubDate, (heroImage,) heroAlt, tags,
featured and draft — and never a `category` field, although the schema
requires one; on the sample document the emitted keys are exactly the
seven non-hero fields and the required `category` is absent. -/
theorem c1_category_never_emitted :
    (∀ astro : AstroFm, "category".toList ∉
      (mdxHeaderLines astro).map
        (fun l => l.takeWhile (fun c => c ≠ ':'))) ∧
    keysOfDoc (processPostPure (fun _ => false) (fun _ => []) []
      ("hello-world.md".toList) ("# Hello\n\nSome body text.".toList)
      ("2026-10-11".toList)).mdx =
      ["title".toList, "description".toList, "pubDate".toList,
       "heroAlt".toList, "tags".toList, "featured".toList,
       "draft".toList] ∧
    "category".toList ∈ blogSchemaRequiredKeys ∧
    "category".toList ∉ keysOfDoc (processPostPure (fun _ => false)
      (fun _ => []) [] ("hello-world.md".toList)
      ("# Hello\n\nSome body text.".toList) ("2026-10-11".toList)).mdx := by
  refine ⟨?_, by decide, by decide, by decide⟩
  intro astro
  cases hh : astro.heroImage with
  | none => rw [mdxKeys_none astro hh]; decide
  | some h => rw [mdxKeys_some astro h hh]; decide
